import Mathlib

/-!
Verification of the `hnk` semantic git diff viewer.

This file shallowly embeds the core of the repository:
- the unified-diff parser (`internal/diff/parser.go`),
- the grouping reconciliation engine (`internal/grouper`, concatenated into
  `internal/ai/claude.go` in the source snapshot),
- the bounded result cache (`internal/cache`, same file),
and proves the specification's claims about them.

Go `int` values are modelled as `Int` (arithmetic in ℤ; the source's line
counters start from header values clamped by `strconv.Atoi` at 2^63-1 and are
only ever incremented once per input line, so 64-bit wraparound is not
modelled).  Go strings are Lean `String`s; `len` of a Go string is the UTF-8
byte count.  The external analyzer subprocess is modelled by its outcome value
(`Option` of the parsed response); a `none` outcome covers transport failure,
timeout, non-zero exit and unparseable JSON alike, exactly the cases the
source collapses into a single `err != nil` branch.
-/

namespace Hnk

/-! ### Small Go string helpers -/

/-- `strings.HasPrefix` on the character level. -/
def goHasPrefix (s : String) (pre : String) : Bool :=
  pre.data.isPrefixOf s.data

/-- The ASCII part of Go's `unicode.IsSpace` plus NEL and NBSP (the other
Unicode space classes do not occur in the inputs considered here). -/
def goIsSpace (c : Char) : Bool :=
  c = ' ' || c = '\t' || c = '\n' || c = Char.ofNat 11 || c = Char.ofNat 12 ||
  c = '\r' || c = Char.ofNat 0x85 || c = Char.ofNat 0xA0

/-- `strings.TrimSpace`. -/
def goTrimSpace (s : String) : String :=
  String.mk (((s.data.dropWhile goIsSpace).reverse.dropWhile goIsSpace).reverse)

/-- Decimal value of a digit string (the regexp groups feeding `strconv.Atoi`
are always `\d+`, i.e. ASCII digit runs). -/
def digitsToNat (cs : List Char) : Nat :=
  cs.foldl (fun a c => a * 10 + (c.toNat - '0'.toNat)) 0

/-- `strconv.Atoi` on a digit run: on 64-bit overflow Go returns the clamped
maximum together with `ErrRange`; the parser discards the error with `_` and
keeps the clamped value. -/
def goAtoiClamp (cs : List Char) : Int :=
  let n := digitsToNat cs
  if n ≤ 9223372036854775807 then (n : Int) else 9223372036854775807

/-- UTF-8 encoding of one scalar value. -/
def charUtf8 (c : Char) : List Nat :=
  let n := c.toNat
  if n < 128 then [n]
  else if n < 2048 then [192 ||| (n >>> 6), 128 ||| (n &&& 63)]
  else if n < 65536 then
    [224 ||| (n >>> 12), 128 ||| ((n >>> 6) &&& 63), 128 ||| (n &&& 63)]
  else
    [240 ||| (n >>> 18), 128 ||| ((n >>> 12) &&& 63), 128 ||| ((n >>> 6) &&& 63),
     128 ||| (n &&& 63)]

/-- UTF-8 byte count of a character sequence. -/
def utf8Len (cs : List Char) : Nat :=
  (cs.flatMap charUtf8).length

def utf8Bytes (s : String) : List Nat :=
  s.data.flatMap charUtf8

/-- Go `len` of a string: its UTF-8 byte count. -/
def goLen (s : String) : Nat :=
  (utf8Bytes s).length

/-! ### The parser's regular expressions

Each of the four anchored regexps of `parser.go` is implemented directly as a
deterministic matcher.  The only backtracking subtleties of the Go originals
are: the greedy `(.+) b/(.+)` in `diffHeaderRe` picks the rightmost ` b/`
marker with a nonempty remainder, and `(?:a/)?(.+)` matches the literal `a/`
when at least one character follows and otherwise captures it. -/

/-- Split `cs` as `g1 ++ (' '::'b'::'/'::g2)` with `g2` nonempty, maximising
`g1` (the greedy first capture of `diffHeaderRe`).  Returns `none` when no
such split exists. -/
def splitAB : List Char → Option (List Char × List Char)
  | [] => none
  | c :: rest =>
    match splitAB rest with
    | some (g1, g2) => some (c :: g1, g2)
    | none =>
      match c, rest with
      | ' ', 'b' :: '/' :: g2 => if g2.isEmpty then none else some ([], g2)
      | _, _ => none

/-- `diffHeaderRe = ^diff --git a/(.+) b/(.+)$`. -/
def matchDiffHeaderL (l : List Char) : Option (String × String) :=
  if "diff --git a/".data.isPrefixOf l then
    match splitAB (l.drop 13) with
    | some (g1, g2) => if g1.isEmpty then none else some (String.mk g1, String.mk g2)
    | none => none
  else none

def matchDiffHeader (s : String) : Option (String × String) :=
  matchDiffHeaderL s.data

/-- `oldFileRe = ^--- (?:a/)?(.+)$`. -/
def matchOldFileL (l : List Char) : Option String :=
  match l with
  | '-' :: '-' :: '-' :: ' ' :: rest =>
    match rest with
    | [] => none
    | 'a' :: '/' :: (c :: r2) => some (String.mk (c :: r2))
    | _ => some (String.mk rest)
  | _ => none

def matchOldFile (s : String) : Option String :=
  matchOldFileL s.data

/-- `newFileRe = ^\+\+\+ (?:b/)?(.+)$`. -/
def matchNewFileL (l : List Char) : Option String :=
  match l with
  | '+' :: '+' :: '+' :: ' ' :: rest =>
    match rest with
    | [] => none
    | 'b' :: '/' :: (c :: r2) => some (String.mk (c :: r2))
    | _ => some (String.mk rest)
  | _ => none

def matchNewFile (s : String) : Option String :=
  matchNewFileL s.data

/-- The raw captures of `hunkHeaderRe`: the two digit runs, the two optional
count digit runs and the trailing context capture `(.*)`. -/
structure HunkCaps where
  oldStartDigits : List Char
  oldCountDigits : Option (List Char)
  newStartDigits : List Char
  newCountDigits : Option (List Char)
  trailing : List Char
deriving DecidableEq, Repr

/-- The optional `(?:,(\d+))?` group: if the next character is a comma it must
be followed by at least one digit (otherwise the whole pattern fails, because
the following literal in the regexp is a space). -/
def optCount (cs : List Char) : Option (Option (List Char) × List Char) :=
  match cs with
  | ',' :: rest =>
    let p := rest.span Char.isDigit
    if p.1.isEmpty then none else some (some p.1, p.2)
  | _ => some (none, cs)

/-- `hunkHeaderRe = ^@@ -(\d+)(?:,(\d+))? \+(\d+)(?:,(\d+))? @@(.*)$`.
Maximal-munch digit runs make the Go regexp's backtracking deterministic. -/
def matchHunkHeaderL (l : List Char) : Option HunkCaps :=
  match l with
  | '@' :: '@' :: ' ' :: '-' :: r0 =>
    let p1 := r0.span Char.isDigit
    if p1.1.isEmpty then none else
    match optCount p1.2 with
    | none => none
    | some (c1, r2) =>
      match r2 with
      | ' ' :: '+' :: r3 =>
        let p2 := r3.span Char.isDigit
        if p2.1.isEmpty then none else
        match optCount p2.2 with
        | none => none
        | some (c2, r5) =>
          match r5 with
          | ' ' :: '@' :: '@' :: tail => some ⟨p1.1, c1, p2.1, c2, tail⟩
          | _ => none
      | _ => none
  | _ => none

def matchHunkHeader (s : String) : Option HunkCaps :=
  matchHunkHeaderL s.data

/-! ### Diff data model (`internal/diff`) -/

inductive LineType where
  | context
  | added
  | removed
  | headerLine
deriving DecidableEq, Repr

structure Line where
  type : LineType
  content : String
  oldNum : Int
  newNum : Int
deriving DecidableEq, Repr

structure Hunk where
  oldStart : Int
  oldCount : Int
  newStart : Int
  newCount : Int
  lines : List Line
  header : String
deriving DecidableEq, Repr

structure FileDiff where
  oldPath : String
  newPath : String
  isNew : Bool
  isDeleted : Bool
  isRenamed : Bool
  isBinary : Bool
  language : String
  hunks : List Hunk
deriving DecidableEq, Repr

structure Diff where
  files : List FileDiff
deriving DecidableEq, Repr

/-- The `languageExtensions` table, in source order.  The Go original is a map
iterated in randomized order, but no key of the table is a suffix of another,
so at most one entry can match any path and a first-match scan over any
ordering computes the same function. -/
def languageExtensions : List (String × String) :=
  [(".go", "go"), (".js", "javascript"), (".jsx", "jsx"), (".ts", "typescript"),
   (".tsx", "tsx"), (".py", "python"), (".rb", "ruby"), (".rs", "rust"),
   (".c", "c"), (".cpp", "cpp"), (".h", "c"), (".hpp", "cpp"),
   (".java", "java"), (".kt", "kotlin"), (".swift", "swift"), (".sh", "bash"),
   (".bash", "bash"), (".zsh", "zsh"), (".fish", "fish"), (".html", "html"),
   (".css", "css"), (".scss", "scss"), (".less", "less"), (".json", "json"),
   (".yaml", "yaml"), (".yml", "yaml"), (".toml", "toml"), (".xml", "xml"),
   (".md", "markdown"), (".sql", "sql"), (".php", "php"), (".lua", "lua"),
   (".vim", "vim"), (".el", "emacs-lisp"), (".clj", "clojure"),
   (".ex", "elixir"), (".exs", "elixir"), (".erl", "erlang"),
   (".hs", "haskell"), (".ml", "ocaml"), (".scala", "scala"), (".r", "r"),
   (".R", "r"), (".pl", "perl"), (".pm", "perl"), (".cs", "csharp"),
   (".fs", "fsharp"), (".tf", "terraform"), (".proto", "protobuf"),
   (".graphql", "graphql"), (".gql", "graphql")]

def detectLanguage (path : String) : String :=
  match languageExtensions.find? (fun pr => pr.1.data.isSuffixOf path.data) with
  | some pr => pr.2
  | none => "text"

/-! ### The `Parse` state machine -/

structure ParseState where
  files : List FileDiff
  currentFile : Option FileDiff
  currentHunk : Option Hunk
  oldLineNum : Int
  newLineNum : Int
deriving Repr

/-- Flush an open hunk into the file, as done at file boundaries, at hunk
boundaries and at end of input. -/
def closeHunk (f : FileDiff) (h : Option Hunk) : FileDiff :=
  match h with
  | none => f
  | some hk => { f with hunks := f.hunks ++ [hk] }

/-- One iteration of the scanner loop of `Parse`, in exactly the source's
branch order: file header, (no current file → skip), status prefixes,
`---`/`+++` path markers, hunk header, then content-line classification. -/
def processLine (st : ParseState) (line : String) : ParseState :=
  match matchDiffHeaderL line.data with
  | some (op, np) =>
    let files := match st.currentFile with
      | none => st.files
      | some f => st.files ++ [closeHunk f st.currentHunk]
    { files := files
      currentFile := some
        { oldPath := op, newPath := np, isNew := false, isDeleted := false,
          isRenamed := false, isBinary := false, language := detectLanguage np,
          hunks := [] }
      currentHunk := none
      oldLineNum := st.oldLineNum, newLineNum := st.newLineNum }
  | none =>
    match st.currentFile with
    | none => st
    | some f =>
      if goHasPrefix line "new file mode" then
        { st with currentFile := some { f with isNew := true } }
      else if goHasPrefix line "deleted file mode" then
        { st with currentFile := some { f with isDeleted := true } }
      else if goHasPrefix line "rename from" || goHasPrefix line "rename to" then
        { st with currentFile := some { f with isRenamed := true } }
      else if goHasPrefix line "Binary files" then
        { st with currentFile := some { f with isBinary := true } }
      else if goHasPrefix line "index " || goHasPrefix line "similarity index" then
        st
      else
        match matchOldFileL line.data with
        | some p =>
          if p ≠ "/dev/null" then
            { st with currentFile := some { f with oldPath := p } }
          else st
        | none =>
          match matchNewFileL line.data with
          | some p =>
            if p ≠ "/dev/null" then
              { st with currentFile := some { f with newPath := p } }
            else st
          | none =>
            match matchHunkHeaderL line.data with
            | some caps =>
              let oldStart := goAtoiClamp caps.oldStartDigits
              let oldCount := match caps.oldCountDigits with
                | none => 1
                | some d => goAtoiClamp d
              let newStart := goAtoiClamp caps.newStartDigits
              let newCount := match caps.newCountDigits with
                | none => 1
                | some d => goAtoiClamp d
              { files := st.files
                currentFile := some (closeHunk f st.currentHunk)
                currentHunk := some
                  { oldStart := oldStart, oldCount := oldCount,
                    newStart := newStart, newCount := newCount, lines := [],
                    header := goTrimSpace (String.mk caps.trailing) }
                oldLineNum := oldStart, newLineNum := newStart }
            | none =>
              match st.currentHunk with
              | none => st
              | some hk =>
                match line.data with
                | '+' :: rest =>
                  { st with
                    currentHunk := some { hk with lines := hk.lines ++
                      [{ type := .added, content := String.mk rest,
                         oldNum := 0, newNum := st.newLineNum }] }
                    newLineNum := st.newLineNum + 1 }
                | '-' :: rest =>
                  { st with
                    currentHunk := some { hk with lines := hk.lines ++
                      [{ type := .removed, content := String.mk rest,
                         oldNum := st.oldLineNum, newNum := 0 }] }
                    oldLineNum := st.oldLineNum + 1 }
                | ' ' :: rest =>
                  { st with
                    currentHunk := some { hk with lines := hk.lines ++
                      [{ type := .context, content := String.mk rest,
                         oldNum := st.oldLineNum, newNum := st.newLineNum }] }
                    oldLineNum := st.oldLineNum + 1
                    newLineNum := st.newLineNum + 1 }
                | [] =>
                  { st with
                    currentHunk := some { hk with lines := hk.lines ++
                      [{ type := .context, content := "",
                         oldNum := st.oldLineNum, newNum := st.newLineNum }] }
                    oldLineNum := st.oldLineNum + 1
                    newLineNum := st.newLineNum + 1 }
                | _ :: _ => st

def initState : ParseState :=
  { files := [], currentFile := none, currentHunk := none,
    oldLineNum := 0, newLineNum := 0 }

/-- The end-of-input flush of `Parse`. -/
def finishState (st : ParseState) : Diff :=
  { files := match st.currentFile with
      | none => st.files
      | some f => st.files ++ [closeHunk f st.currentHunk] }

def parseLines (ls : List String) : Diff :=
  finishState (ls.foldl processLine initState)

/-- The `\n`-separated segments of the input; `goScanLines` turns them into
the scanner's tokens with the size limit applied. -/
def splitNl : List Char → List (List Char)
  | [] => [[]]
  | '\n' :: rest => [] :: splitNl rest
  | c :: rest =>
    match splitNl rest with
    | [] => [[c]]
    | t :: ts => (c :: t) :: ts

def dropFinalCR (cs : List Char) : List Char :=
  if cs.getLast? = some '\r' then cs.dropLast else cs

/-- `bufio.MaxScanTokenSize = 64 * 1024`, the default buffer and token-size
cap of `bufio.Scanner` (`Parse` builds the scanner without a `Buffer` call). -/
def MaxScanTokenSize : Nat := 65536

/-- `bufio.Scanner` with `ScanLines` and the default buffer: each
`\n`-separated segment becomes a token with one trailing `\r` stripped, and a
trailing newline yields no final empty token.  A segment of
`MaxScanTokenSize` bytes or more never fits the buffer together with its
newline, so `Scan` stops there: the tokens before it stand and `Err()`
returns `bufio.ErrTooLong` (`"bufio.Scanner: token too long"`). -/
def goScanLines : List (List Char) → List String × Option String
  | [] => ([], none)
  | [seg] =>
    if MaxScanTokenSize ≤ utf8Len seg then
      ([], some "bufio.Scanner: token too long")
    else if seg.isEmpty then ([], none)
    else ([String.mk (dropFinalCR seg)], none)
  | seg :: seg2 :: rest =>
    if MaxScanTokenSize ≤ utf8Len seg then
      ([], some "bufio.Scanner: token too long")
    else
      (String.mk (dropFinalCR seg) :: (goScanLines (seg2 :: rest)).1,
       (goScanLines (seg2 :: rest)).2)

/-- The lines the scanner loop of `Parse` feeds through the state machine. -/
def goSplitLines (s : String) : List String :=
  (goScanLines (splitNl s.data)).1

/-- `Parse` on raw text: the scanned lines fed through the state machine,
paired with `scanner.Err()` — no other statement of the source produces an
error; in particular the `strconv.Atoi` errors at the hunk header are
discarded with `_`. -/
def ParseE (s : String) : Diff × Option String :=
  (parseLines (goSplitLines s), (goScanLines (splitNl s.data)).2)

/-- `Diff.RawString`. -/
def rawLine (l : Line) : String :=
  match l.type with
  | .added => "+" ++ l.content ++ "\n"
  | .removed => "-" ++ l.content ++ "\n"
  | .context => " " ++ l.content ++ "\n"
  | .headerLine => ""

def rawHunk (h : Hunk) : String :=
  "@@ -" ++ toString h.oldStart ++ "," ++ toString h.oldCount ++
  " +" ++ toString h.newStart ++ "," ++ toString h.newCount ++ " @@" ++
  (if h.header ≠ "" then " " ++ h.header else "") ++ "\n" ++
  String.join (h.lines.map rawLine)

def rawFile (f : FileDiff) : String :=
  "diff --git a/" ++ f.oldPath ++ " b/" ++ f.newPath ++ "\n" ++
  String.join (f.hunks.map rawHunk)

def RawString (d : Diff) : String :=
  String.join (d.files.map rawFile)

/-! ### Grouping reconciliation engine (`internal/grouper`)

`ai.SemanticGroup` is the unmarshalled JSON shape of one proposed group;
quantifying over all values of this type covers every well-formed analyzer
response (malformed responses fail `json.Unmarshal` and are collapsed into
the failure outcome).  The grouper's `GroupedHunk` holds pointers
`&d.Files[i]` / `&d.Files[i].Hunks[j]` into the diff; a pointer into the
immutable model is determined by its index pair, so it is modelled as the
pair `(fileIdx, hunkIdx)`. -/

structure AIGroup where
  title : String
  description : String
  fileIndices : List Int
  hunkIndices : List (List Int)
deriving DecidableEq, Repr

structure SemanticAnalysis where
  groups : List AIGroup
deriving DecidableEq, Repr

structure GroupedHunk where
  fileIdx : Nat
  hunkIdx : Nat
deriving DecidableEq, Repr

structure SemanticGroup where
  title : String
  description : String
  hunks : List GroupedHunk
deriving DecidableEq, Repr

/-- `generateTitle`, with the source's exact test order. -/
def generateTitle (f : FileDiff) (h : Hunk) : String :=
  if f.isNew then "Add " ++ f.newPath
  else if f.isDeleted then "Remove " ++ f.oldPath
  else if f.isRenamed then "Rename " ++ f.oldPath ++ " to " ++ f.newPath
  else if h.header ≠ "" then "Update " ++ h.header ++ " in " ++ f.newPath
  else "Modify " ++ f.newPath

/-- Inner loop of `fallbackGrouping`: one singleton group per hunk, `j` is the
running hunk index. -/
def fallbackHunks (f : FileDiff) (fileIdx : Nat) (j : Nat) : List Hunk → List SemanticGroup
  | [] => []
  | h :: rest =>
    { title := generateTitle f h
      description := "Changes to " ++ f.newPath ++ " around line " ++ toString h.newStart
      hunks := [⟨fileIdx, j⟩] } :: fallbackHunks f fileIdx (j + 1) rest

def fallbackFiles (i : Nat) : List FileDiff → List SemanticGroup
  | [] => []
  | f :: rest => fallbackHunks f i 0 f.hunks ++ fallbackFiles (i + 1) rest

/-- `fallbackGrouping`. -/
def fallbackGrouping (d : Diff) : List SemanticGroup :=
  fallbackFiles 0 d.files

/-- The inner hunk-index loop of `buildGroups`.  The Go `usedHunks` map is
keyed by the string `fmt.Sprintf("%d-%d", fileIdx, hunkIdx)`, which is
injective on the pairs of naturals that reach it (decimal digit runs contain
no `-`), so it is modelled as a list of pairs. -/
def collectFile (fileIdx : Nat) (hunksLen : Nat) (hidxs : List Int)
    (used : List (Nat × Nat)) (cur : List GroupedHunk) :
    List (Nat × Nat) × List GroupedHunk :=
  match hidxs with
  | [] => (used, cur)
  | hi :: rest =>
    if hi < 0 then collectFile fileIdx hunksLen rest used cur
    else if hi.toNat < hunksLen then
      if (fileIdx, hi.toNat) ∈ used then collectFile fileIdx hunksLen rest used cur
      else
        collectFile fileIdx hunksLen rest (used ++ [(fileIdx, hi.toNat)])
          (cur ++ [⟨fileIdx, hi.toNat⟩])
    else collectFile fileIdx hunksLen rest used cur

/-- The file-index loop of `buildGroups` for one proposed group; `i` is the
position in `FileIndices`, used to select the parallel `HunkIndices[i]` (an
absent entry means "all hunks of that file"). -/
def collectGroup (d : Diff) (fidxs : List Int) (hidxss : List (List Int)) (i : Nat)
    (used : List (Nat × Nat)) (cur : List GroupedHunk) :
    List (Nat × Nat) × List GroupedHunk :=
  match fidxs with
  | [] => (used, cur)
  | fi :: rest =>
    if fi < 0 then collectGroup d rest hidxss (i + 1) used cur
    else
      match d.files.get? fi.toNat with
      | none => collectGroup d rest hidxss (i + 1) used cur
      | some f =>
        let hidxs := match hidxss.get? i with
          | some l => l
          | none => (List.range f.hunks.length).map Int.ofNat
        let r := collectFile fi.toNat f.hunks.length hidxs used cur
        collectGroup d rest hidxss (i + 1) r.1 r.2

/-- The proposed-group loop of `buildGroups`: keep a group iff it retained at
least one valid reference. -/
def reconcileGroups (d : Diff) (ags : List AIGroup) (used : List (Nat × Nat)) :
    List (Nat × Nat) × List SemanticGroup :=
  match ags with
  | [] => (used, [])
  | ag :: rest =>
    let r := collectGroup d ag.fileIndices ag.hunkIndices 0 used []
    let r2 := reconcileGroups d rest r.1
    (r2.1,
      (if r.2.isEmpty then []
       else [{ title := ag.title, description := ag.description, hunks := r.2 }]) ++ r2.2)

/-- The final sweep of `buildGroups`.  The source also inserts each swept pair
into `usedHunks`, but each pair is enumerated exactly once, so the insertions
can never affect a later membership test and the scan reads the entry set as
it was after reconciliation. -/
def sweepHunks (used : List (Nat × Nat)) (f : FileDiff) (i : Nat) (j : Nat) :
    List Hunk → List SemanticGroup
  | [] => []
  | h :: rest =>
    if (i, j) ∈ used then sweepHunks used f i (j + 1) rest
    else
      { title := generateTitle f h
        description := "Additional changes to " ++ f.newPath
        hunks := [⟨i, j⟩] } :: sweepHunks used f i (j + 1) rest

def sweepFiles (used : List (Nat × Nat)) (i : Nat) : List FileDiff → List SemanticGroup
  | [] => []
  | f :: rest => sweepHunks used f i 0 f.hunks ++ sweepFiles used (i + 1) rest

/-- `buildGroups`. -/
def buildGroups (d : Diff) (analysis : SemanticAnalysis) : List SemanticGroup :=
  let r := reconcileGroups d analysis.groups []
  r.2 ++ sweepFiles r.1 0 d.files

def totalHunks (d : Diff) : Nat :=
  (d.files.map (fun f => f.hunks.length)).sum

/-- `singleHunkGroup`: `describe` is the outcome of
`GenerateDescription` (`none` = error).  The empty-list arms are unreachable
(the caller has checked one file with one hunk) and return the caller's
zero-hunk result. -/
def singleHunkGroup (d : Diff) (describe : Option String) :
    List SemanticGroup × Option String :=
  match d.files with
  | [] => ([], none)
  | f :: _ =>
    match f.hunks with
    | [] => ([], none)
    | h :: _ =>
      let desc := match describe with
        | some v => v
        | none => "Changes to " ++ f.newPath
      ([{ title := generateTitle f h, description := desc, hunks := [⟨0, 0⟩] }], none)

/-- `GroupDiff`: `analyze` is the outcome of `AnalyzeDiff` (`none` = transport
failure, timeout, non-zero exit or unparseable JSON).  The second component
is the returned `error`. -/
def GroupDiff (d : Diff) (analyze : Option SemanticAnalysis)
    (describe : Option String) : List SemanticGroup × Option String :=
  if d.files.length = 0 then ([], none)
  else if totalHunks d = 0 then ([], none)
  else if totalHunks d = 1 ∧ d.files.length = 1 then singleHunkGroup d describe
  else
    match analyze with
    | none => (fallbackGrouping d, none)
    | some analysis => (buildGroups d analysis, none)

/-! ### Result cache (`internal/cache`)

`time.Time` stamps are modelled as `Nat` ticks supplied to `Set`;
`path`/`load`/`save` are filesystem plumbing with no effect on the value
semantics of `Get`/`Set` (a missing or corrupt store degrades to an empty
entry list, which is the `New` result modelled here). -/

structure Entry where
  key : String
  value : String
  size : Nat
  createdAt : Nat
deriving DecidableEq, Repr

structure Cache where
  entries : List Entry
  maxSize : Nat
deriving DecidableEq, Repr

def DefaultMaxSize : Nat := 5 * 1024 * 1024

/-- `cache.New`: a non-positive budget falls back to the default. -/
def Cache.New (maxSize : Int) : Cache :=
  { entries := [], maxSize := if maxSize ≤ 0 then DefaultMaxSize else maxSize.toNat }

/-- `Cache.Get`: first entry with the key. -/
def Cache.Get (c : Cache) (key : String) : Option String :=
  match c.entries.find? (fun e => e.key = key) with
  | some e => some e.value
  | none => none

/-- The same-key removal loop at the top of `Set` (breaks after the first
match). -/
def removeFirstKey (key : String) : List Entry → List Entry
  | [] => []
  | e :: rest => if e.key = key then rest else e :: removeFirstKey key rest

/-- Sort by `createdAt` ascending (`sort.Slice` with `Before`).  `sort.Slice`
is not stable; on the distinct timestamps the claims are stated over, every
comparison sort computes the same list, so insertion sort is used. -/
def insertByCreated (e : Entry) : List Entry → List Entry
  | [] => [e]
  | x :: xs =>
    if e.createdAt < x.createdAt then e :: x :: xs else x :: insertByCreated e xs

def sortByCreated : List Entry → List Entry
  | [] => []
  | e :: es => insertByCreated e (sortByCreated es)

def totalSize (es : List Entry) : Nat :=
  (es.map (fun e => e.size)).sum

/-- The eviction loop: drop oldest-first while the running total exceeds the
budget. -/
def dropWhileOver (maxSize : Nat) (total : Nat) : List Entry → List Entry
  | [] => []
  | e :: rest =>
    if maxSize < total then dropWhileOver maxSize (total - e.size) rest
    else e :: rest

/-- `Cache.evict`. -/
def Cache.evict (c : Cache) : Cache :=
  let es := sortByCreated c.entries
  { c with entries := dropWhileOver c.maxSize (totalSize es) es }

/-- `Cache.Set` at time `now`: replace any entry with the same key, append the
new entry, then evict.  The trailing `save()` is filesystem plumbing. -/
def Cache.Set (c : Cache) (key value : String) (now : Nat) : Cache :=
  let size := goLen key + goLen value
  Cache.evict
    { c with entries :=
        removeFirstKey key c.entries ++ [⟨key, value, size, now⟩] }

/-! ### `cache.HashKey`: hex of the first 16 bytes of SHA-256.
32-bit words are `Nat`s kept below `2^32` by explicit masking. -/

def w32 (n : Nat) : Nat := n % 4294967296

def rotr32 (x k : Nat) : Nat := w32 ((x >>> k) ||| (x <<< (32 - k)))

def shaK : List Nat :=
  [1116352408, 1899447441, 3049323471, 3921009573,
   961987163, 1508970993, 2453635748, 2870763221,
   3624381080, 310598401, 607225278, 1426881987,
   1925078388, 2162078206, 2614888103, 3248222580,
   3835390401, 4022224774, 264347078, 604807628,
   770255983, 1249150122, 1555081692, 1996064986,
   2554220882, 2821834349, 2952996808, 3210313671,
   3336571891, 3584528711, 113926993, 338241895,
   666307205, 773529912, 1294757372, 1396182291,
   1695183700, 1986661051, 2177026350, 2456956037,
   2730485921, 2820302411, 3259730800, 3345764771,
   3516065817, 3600352804, 4094571909, 275423344,
   430227734, 506948616, 659060556, 883997877,
   958139571, 1322822218, 1537002063, 1747873779,
   1955562222, 2024104815, 2227730452, 2361852424,
   2428436474, 2756734187, 3204031479, 3329325298]

structure Sha8 where
  a : Nat
  b : Nat
  c : Nat
  d : Nat
  e : Nat
  f : Nat
  g : Nat
  h : Nat
deriving Repr

def shaInit : Sha8 :=
  ⟨1779033703, 3144134277, 1013904242, 2773480762,
   1359893119, 2600822924, 528734635, 1541459225⟩

/-- Big-endian 32-bit words from a byte list whose length is a multiple of 4. -/
def beWords : List Nat → List Nat
  | b0 :: b1 :: b2 :: b3 :: rest =>
    ((b0 <<< 24) ||| (b1 <<< 16) ||| (b2 <<< 8) ||| b3) :: beWords rest
  | _ => []

def smallSigma0 (x : Nat) : Nat := rotr32 x 7 ^^^ rotr32 x 18 ^^^ (x >>> 3)

def smallSigma1 (x : Nat) : Nat := rotr32 x 17 ^^^ rotr32 x 19 ^^^ (x >>> 10)

/-- Extend the 16 block words to the 64-entry message schedule. -/
def schedule (w16 : List Nat) : List Nat :=
  (List.range 48).foldl
    (fun w _ =>
      let i := w.length
      w ++ [w32 (smallSigma1 (w.getD (i - 2) 0) + w.getD (i - 7) 0 +
                 smallSigma0 (w.getD (i - 15) 0) + w.getD (i - 16) 0)])
    w16

def compressStep (s : Sha8) (wk : Nat × Nat) : Sha8 :=
  let s1 := rotr32 s.e 6 ^^^ rotr32 s.e 11 ^^^ rotr32 s.e 25
  let ch := (s.e &&& s.f) ^^^ ((s.e ^^^ 4294967295) &&& s.g)
  let t1 := w32 (s.h + s1 + ch + wk.2 + wk.1)
  let s0 := rotr32 s.a 2 ^^^ rotr32 s.a 13 ^^^ rotr32 s.a 22
  let mj := (s.a &&& s.b) ^^^ (s.a &&& s.c) ^^^ (s.b &&& s.c)
  let t2 := w32 (s0 + mj)
  ⟨w32 (t1 + t2), s.a, s.b, s.c, w32 (s.d + t1), s.e, s.f, s.g⟩

def compressBlock (hs : Sha8) (block : List Nat) : Sha8 :=
  let s := ((schedule (beWords block)).zip shaK).foldl compressStep hs
  ⟨w32 (hs.a + s.a), w32 (hs.b + s.b), w32 (hs.c + s.c), w32 (hs.d + s.d),
   w32 (hs.e + s.e), w32 (hs.f + s.f), w32 (hs.g + s.g), w32 (hs.h + s.h)⟩

/-- SHA-256 padding: `0x80`, zeros to 56 mod 64, 8-byte big-endian bit length. -/
def shaPad (msg : List Nat) : List Nat :=
  msg ++ 128 :: List.replicate ((119 - msg.length % 64) % 64) 0 ++
    (List.range 8).map (fun i => ((msg.length * 8) >>> (8 * (7 - i))) % 256)

def toBlocks : List Nat → List (List Nat)
  | [] => []
  | x :: xs => ((x :: xs).take 64) :: toBlocks ((x :: xs).drop 64)
termination_by l => l.length
decreasing_by simp [List.length_drop]; omega

def word32be (w : Nat) : List Nat :=
  [(w >>> 24) % 256, (w >>> 16) % 256, (w >>> 8) % 256, w % 256]

def sha256Bytes (msg : List Nat) : List Nat :=
  let s := (toBlocks (shaPad msg)).foldl compressBlock shaInit
  [s.a, s.b, s.c, s.d, s.e, s.f, s.g, s.h].flatMap word32be

def hexCharOf (n : Nat) : Char :=
  if n < 10 then Char.ofNat ('0'.toNat + n) else Char.ofNat ('a'.toNat + n - 10)

def byteHexChars (b : Nat) : List Char :=
  [hexCharOf (b / 16), hexCharOf (b % 16)]

/-- `cache.HashKey`: lowercase hex of the first 16 bytes of the SHA-256 of the
content. -/
def HashKey (content : String) : String :=
  String.mk (((sha256Bytes (utf8Bytes content)).take 16).flatMap byteHexChars)

/-! ### The cache-wired grouper

`cmd/hnk/main.go` constructs the grouper with `grouper.New(claudeAI, c)`,
passing the cache; the grouper source included in the snapshot is an earlier
revision whose `New` takes no cache and whose call paths never touch one.
The wired revision is therefore modelled from the spec. -/

/-- Modelled from the spec: the single-description fast path of the
cache-wired grouper (missing from the source snapshot; only its caller
`cmd/hnk/main.go` is present).  Per the spec it is "cache-checked first by a
hash of the raw diff text"; on a miss it calls the analyzer and stores a
successful result; "on analyzer failure or timeout, substitute a
deterministic description".  Title generation and group shape follow the
snapshot's `singleHunkGroup`. -/
def singleHunkGroupWired (d : Diff) (c : Cache) (describe : Option String)
    (now : Nat) : (List SemanticGroup × Option String) × Cache :=
  match d.files with
  | [] => (([], none), c)
  | f :: _ =>
    match f.hunks with
    | [] => (([], none), c)
    | h :: _ =>
      let key := HashKey (RawString d)
      match Cache.Get c key with
      | some v =>
        (([{ title := generateTitle f h, description := v, hunks := [⟨0, 0⟩] }],
          none), c)
      | none =>
        match describe with
        | some v =>
          (([{ title := generateTitle f h, description := v, hunks := [⟨0, 0⟩] }],
            none), Cache.Set c key v now)
        | none =>
          (([{ title := generateTitle f h,
               description := "Changes to " ++ f.newPath, hunks := [⟨0, 0⟩] }],
            none), c)

/-- Modelled from the spec: the cache-wired `GroupDiff`.  Dispatch and the
structured path follow the snapshot's `GroupDiff` (the structured path's own
memoization only short-circuits the analyzer call, which the outcome value
`analyze` already abstracts, so it does not change the returned groups). -/
def GroupDiffWired (d : Diff) (c : Cache) (analyze : Option SemanticAnalysis)
    (describe : Option String) (now : Nat) :
    (List SemanticGroup × Option String) × Cache :=
  if d.files.length = 0 then (([], none), c)
  else if totalHunks d = 0 then (([], none), c)
  else if totalHunks d = 1 ∧ d.files.length = 1 then
    singleHunkGroupWired d c describe now
  else
    match analyze with
    | none => ((fallbackGrouping d, none), c)
    | some analysis => ((buildGroups d analysis, none), c)

/-! ### Specification-side definitions used by the theorem statements -/

/-- The `(fileIndex, hunkIndex)` references of a group list, flattened in
order. -/
def refs (gs : List SemanticGroup) : List (Nat × Nat) :=
  gs.flatMap (fun g => g.hunks.map (fun gh => (gh.fileIdx, gh.hunkIdx)))

/-- All hunk references of the hunk list of file `i`, starting at hunk index
`j`. -/
def hunkPairs (i j : Nat) : List Hunk → List (Nat × Nat)
  | [] => []
  | _ :: rest => (i, j) :: hunkPairs i (j + 1) rest

def filePairs (i : Nat) : List FileDiff → List (Nat × Nat)
  | [] => []
  | f :: rest => hunkPairs i 0 f.hunks ++ filePairs (i + 1) rest

/-- Every `(fileIndex, hunkIndex)` pair of a diff, in ascending
file-then-hunk order. -/
def allPairs (d : Diff) : List (Nat × Nat) :=
  filePairs 0 d.files

/-- A pair that denotes an actual hunk of the diff. -/
def inRangePair (d : Diff) (p : Nat × Nat) : Prop :=
  ∃ f, d.files.get? p.1 = some f ∧ p.2 < f.hunks.length

/-- A parsed line that carries an old-file line number (`-` or context). -/
def touchesOld (l : Line) : Bool :=
  match l.type with
  | .removed => true
  | .context => true
  | _ => false

/-- A parsed line that carries a new-file line number (`+` or context). -/
def touchesNew (l : Line) : Bool :=
  match l.type with
  | .added => true
  | .context => true
  | _ => false

/-- The content-line classification of the scanner loop, as a function of the
two running counters — the specification against which the fold of
`processLine` over a hunk body is compared. -/
def classify (a b : Int) : List String → List Line
  | [] => []
  | l :: rest =>
    match l.data with
    | '+' :: r => ⟨.added, String.mk r, 0, b⟩ :: classify a (b + 1) rest
    | '-' :: r => ⟨.removed, String.mk r, a, 0⟩ :: classify (a + 1) b rest
    | ' ' :: r => ⟨.context, String.mk r, a, b⟩ :: classify (a + 1) (b + 1) rest
    | [] => ⟨.context, "", a, b⟩ :: classify (a + 1) (b + 1) rest
    | _ :: _ => classify a b rest

/-- Body lines touching the old side. -/
def isOldSideLine (s : String) : Bool :=
  match s.data with
  | '-' :: _ => true
  | ' ' :: _ => true
  | [] => true
  | _ => false

/-- Body lines touching the new side. -/
def isNewSideLine (s : String) : Bool :=
  match s.data with
  | '+' :: _ => true
  | ' ' :: _ => true
  | [] => true
  | _ => false

def countOldB (body : List String) : Nat := body.countP isOldSideLine

def countNewB (body : List String) : Nat := body.countP isNewSideLine

/-- A well-formed hunk body line: it starts with a diff marker (or is empty)
and does not collide with the `---`/`+++` path-marker patterns (a removed
line whose content starts with `-- ` or an added line whose content starts
with `++ ` is consumed as a path marker by the parser, not as a hunk line). -/
def isContentLine (s : String) : Bool :=
  (matchOldFileL s.data).isNone && (matchNewFileL s.data).isNone &&
  (match s.data with
   | '+' :: _ => true
   | '-' :: _ => true
   | ' ' :: _ => true
   | [] => true
   | _ => false)

/-- Any of the file-status prefixes consumed inside a file. -/
def statusLine (s : String) : Bool :=
  goHasPrefix s "new file mode" || goHasPrefix s "deleted file mode" ||
  goHasPrefix s "rename from" || goHasPrefix s "rename to" ||
  goHasPrefix s "Binary files" || goHasPrefix s "index " ||
  goHasPrefix s "similarity index"

/-- A line no branch of the scanner loop recognizes: it is skipped in every
parser state. -/
def unrecognizedLine (s : String) : Bool :=
  (matchDiffHeaderL s.data).isNone && !statusLine s &&
  (matchOldFileL s.data).isNone && (matchNewFileL s.data).isNone &&
  (matchHunkHeaderL s.data).isNone &&
  (match s.data with
   | '+' :: _ => false
   | '-' :: _ => false
   | ' ' :: _ => false
   | [] => false
   | _ => true)

/-! ## Lemmas about the scanner loop -/

theorem matchHunkHeaderL_shape {l : List Char} {caps : HunkCaps}
    (h : matchHunkHeaderL l = some caps) :
    ∃ r, l = '@' :: '@' :: ' ' :: '-' :: r := by
  unfold matchHunkHeaderL at h
  split at h
  · next r0 => exact ⟨r0, rfl⟩
  · exact absurd h (by simp)

theorem matchOldFileL_shape {l : List Char} {p : String}
    (h : matchOldFileL l = some p) :
    ∃ r, l = '-' :: '-' :: '-' :: ' ' :: r := by
  unfold matchOldFileL at h
  split at h
  · next r0 => exact ⟨r0, rfl⟩
  · exact absurd h (by simp)

theorem matchNewFileL_shape {l : List Char} {p : String}
    (h : matchNewFileL l = some p) :
    ∃ r, l = '+' :: '+' :: '+' :: ' ' :: r := by
  unfold matchNewFileL at h
  split at h
  · next r0 => exact ⟨r0, rfl⟩
  · exact absurd h (by simp)

/-- A line whose first character is none of the scanner's marker characters
matches no branch: `processLine` leaves any state unchanged (the `skipped`
lines of the source). -/
theorem processLine_skip {g : String} (hg : unrecognizedLine g = true)
    (st : ParseState) : processLine st g = st := by
  simp only [unrecognizedLine, Bool.and_eq_true, Option.isNone_iff_eq_none,
    Bool.not_eq_true'] at hg
  obtain ⟨⟨⟨⟨⟨hdh, hst⟩, hof⟩, hnf⟩, hhh⟩, hmk⟩ := hg
  simp only [statusLine, Bool.or_eq_false_iff] at hst
  obtain ⟨⟨⟨⟨⟨⟨h1, h2⟩, h3⟩, h4⟩, h5⟩, h6⟩, h7⟩ := hst
  unfold processLine
  rw [hdh]
  cases hcf : st.currentFile with
  | none => rfl
  | some f =>
    rw [h1, h2, h3, h4, h5, h6, h7]
    simp only [Bool.false_eq_true, if_false, Bool.or_self]
    rw [hof, hnf, hhh]
    cases hch : st.currentHunk with
    | none => rfl
    | some hk =>
      revert hmk
      cases hgd : g.data with
      | nil => simp
      | cons c r =>
        cases c with
        | mk cv =>
          intro hmk
          simp only []
          split
          · next heq => rw [heq] at hmk; simp at hmk
          · next heq => rw [heq] at hmk; simp at hmk
          · next heq => rw [heq] at hmk; simp at hmk
          · next heq => exact absurd heq (by simp [hgd])
          · rfl

theorem processLine_diffHeader {line : String} {op np : String}
    (h : matchDiffHeaderL line.data = some (op, np)) (st : ParseState) :
    processLine st line =
      { files := match st.currentFile with
          | none => st.files
          | some f => st.files ++ [closeHunk f st.currentHunk]
        currentFile := some
          { oldPath := op, newPath := np, isNew := false, isDeleted := false,
            isRenamed := false, isBinary := false,
            language := detectLanguage np, hunks := [] }
        currentHunk := none
        oldLineNum := st.oldLineNum, newLineNum := st.newLineNum } := by
  unfold processLine
  rw [h]

theorem processLine_hunkHeader {line : String} {caps : HunkCaps}
    (h : matchHunkHeaderL line.data = some caps) (st : ParseState) (f : FileDiff)
    (hf : st.currentFile = some f) :
    processLine st line =
      { files := st.files
        currentFile := some (closeHunk f st.currentHunk)
        currentHunk := some
          { oldStart := goAtoiClamp caps.oldStartDigits
            oldCount := match caps.oldCountDigits with
              | none => 1
              | some d => goAtoiClamp d
            newStart := goAtoiClamp caps.newStartDigits
            newCount := match caps.newCountDigits with
              | none => 1
              | some d => goAtoiClamp d
            lines := []
            header := goTrimSpace (String.mk caps.trailing) }
        oldLineNum := goAtoiClamp caps.oldStartDigits
        newLineNum := goAtoiClamp caps.newStartDigits } := by
  obtain ⟨r, hld⟩ := matchHunkHeaderL_shape h
  unfold processLine goHasPrefix
  rw [hld] at h ⊢
  rw [hf, h]
  rfl

theorem processLine_plusLine {line : String} {r : List Char}
    (hld : line.data = '+' :: r) (hnf : matchNewFileL line.data = none)
    (files : List FileDiff) (f : FileDiff) (hk : Hunk) (a b : Int) :
    processLine ⟨files, some f, some hk, a, b⟩ line =
      ⟨files, some f,
       some { hk with lines := hk.lines ++ [⟨.added, String.mk r, 0, b⟩] },
       a, b + 1⟩ := by
  unfold processLine goHasPrefix
  rw [hld] at hnf ⊢
  rw [hnf]
  rfl

theorem processLine_minusLine {line : String} {r : List Char}
    (hld : line.data = '-' :: r) (hof : matchOldFileL line.data = none)
    (files : List FileDiff) (f : FileDiff) (hk : Hunk) (a b : Int) :
    processLine ⟨files, some f, some hk, a, b⟩ line =
      ⟨files, some f,
       some { hk with lines := hk.lines ++ [⟨.removed, String.mk r, a, 0⟩] },
       a + 1, b⟩ := by
  unfold processLine goHasPrefix
  rw [hld] at hof ⊢
  rw [hof]
  rfl

theorem processLine_spaceLine {line : String} {r : List Char}
    (hld : line.data = ' ' :: r)
    (files : List FileDiff) (f : FileDiff) (hk : Hunk) (a b : Int) :
    processLine ⟨files, some f, some hk, a, b⟩ line =
      ⟨files, some f,
       some { hk with lines := hk.lines ++ [⟨.context, String.mk r, a, b⟩] },
       a + 1, b + 1⟩ := by
  unfold processLine goHasPrefix
  rw [hld]
  rfl

theorem processLine_emptyLine {line : String} (hld : line.data = [])
    (files : List FileDiff) (f : FileDiff) (hk : Hunk) (a b : Int) :
    processLine ⟨files, some f, some hk, a, b⟩ line =
      ⟨files, some f,
       some { hk with lines := hk.lines ++ [⟨.context, "", a, b⟩] },
       a + 1, b + 1⟩ := by
  unfold processLine goHasPrefix
  rw [hld]
  rfl

/-- Folding the scanner loop over a hunk body made of content lines only
appends exactly the classified lines and advances each counter once per line
touching its side. -/
theorem foldl_body (body : List String)
    (hbody : ∀ l ∈ body, isContentLine l = true) (files : List FileDiff)
    (f : FileDiff) (hk : Hunk) (a b : Int) :
    body.foldl processLine ⟨files, some f, some hk, a, b⟩ =
      ⟨files, some f, some { hk with lines := hk.lines ++ classify a b body },
       a + (countOldB body : Int), b + (countNewB body : Int)⟩ := by
  induction body generalizing hk a b with
  | nil =>
    simp [classify, countOldB, countNewB]
  | cons l rest ih =>
    have hl := hbody l (List.mem_cons_self ..)
    have hrest : ∀ x ∈ rest, isContentLine x = true :=
      fun x hx => hbody x (List.mem_cons_of_mem _ hx)
    simp only [isContentLine, Bool.and_eq_true, Option.isNone_iff_eq_none] at hl
    obtain ⟨⟨hof, hnf⟩, hmk⟩ := hl
    rw [List.foldl_cons]
    split at hmk
    · next r heq =>
      have ho : isOldSideLine l = false := by unfold isOldSideLine; rw [heq] <;> rfl
      have hn : isNewSideLine l = true := by unfold isNewSideLine; rw [heq] <;> rfl
      rw [processLine_plusLine heq hnf, ih hrest]
      simp [classify, heq, countOldB, countNewB, List.countP_cons, ho, hn,
        ParseState.mk.injEq, Option.some.injEq, Hunk.mk.injEq, List.append_assoc,
        List.singleton_append]
      all_goals omega
    · next r heq =>
      have ho : isOldSideLine l = true := by unfold isOldSideLine; rw [heq] <;> rfl
      have hn : isNewSideLine l = false := by unfold isNewSideLine; rw [heq] <;> rfl
      rw [processLine_minusLine heq hof, ih hrest]
      simp [classify, heq, countOldB, countNewB, List.countP_cons, ho, hn,
        ParseState.mk.injEq, Option.some.injEq, Hunk.mk.injEq, List.append_assoc,
        List.singleton_append]
      all_goals omega
    · next r heq =>
      have ho : isOldSideLine l = true := by unfold isOldSideLine; rw [heq] <;> rfl
      have hn : isNewSideLine l = true := by unfold isNewSideLine; rw [heq] <;> rfl
      rw [processLine_spaceLine heq, ih hrest]
      simp [classify, heq, countOldB, countNewB, List.countP_cons, ho, hn,
        ParseState.mk.injEq, Option.some.injEq, Hunk.mk.injEq, List.append_assoc,
        List.singleton_append]
      all_goals omega
    · next heq =>
      have ho : isOldSideLine l = true := by unfold isOldSideLine; rw [heq] <;> rfl
      have hn : isNewSideLine l = true := by unfold isNewSideLine; rw [heq] <;> rfl
      rw [processLine_emptyLine heq, ih hrest]
      simp [classify, heq, countOldB, countNewB, List.countP_cons, ho, hn,
        ParseState.mk.injEq, Option.some.injEq, Hunk.mk.injEq, List.append_assoc,
        List.singleton_append]
      all_goals omega
    · exact absurd hmk (by simp)

/-- Prepending the current counter to a consecutive run starting one higher
gives a consecutive run starting at the counter. -/
theorem cons_range_shift (a : Int) (cnt : Nat) (l2 : List Int)
    (h : l2 = (List.range cnt).map (fun k : Nat => (a + 1) + (k : Int))) :
    a :: l2 = (List.range (cnt + 1)).map (fun k : Nat => a + (k : Int)) := by
  subst h
  rw [List.range_succ_eq_map, List.map_cons, List.map_map]
  congr 1
  · simp
  · refine List.map_congr_left ?_
    intro k _
    simp only [Function.comp]
    push_cast
    ring

/-- The old-side line numbers of a classified body are consecutive from the
initial counter. -/
theorem classify_old_map (body : List String)
    (hbody : ∀ l ∈ body, isContentLine l = true) (a b : Int) :
    ((classify a b body).filter touchesOld).map Line.oldNum =
      (List.range (countOldB body)).map (fun k : Nat => a + (k : Int)) := by
  induction body generalizing a b with
  | nil => simp [classify, countOldB]
  | cons l rest ih =>
    have hl := hbody l (List.mem_cons_self ..)
    have hrest : ∀ x ∈ rest, isContentLine x = true :=
      fun x hx => hbody x (List.mem_cons_of_mem _ hx)
    simp only [isContentLine, Bool.and_eq_true, Option.isNone_iff_eq_none] at hl
    obtain ⟨⟨hof, hnf⟩, hmk⟩ := hl
    split at hmk
    · next r heq =>
      have ho : isOldSideLine l = false := by unfold isOldSideLine; rw [heq] <;> rfl
      have hcnt : countOldB (l :: rest) = countOldB rest := by
        simp [countOldB, List.countP_cons, ho]
      simp only [classify, heq]
      rw [List.filter_cons]
      rw [if_neg (by simp [touchesOld])]
      rw [hcnt]
      exact ih hrest a (b + 1)
    · next r heq =>
      have ho : isOldSideLine l = true := by unfold isOldSideLine; rw [heq] <;> rfl
      have hcnt : countOldB (l :: rest) = countOldB rest + 1 := by
        simp [countOldB, List.countP_cons, ho]
      simp only [classify, heq]
      rw [List.filter_cons]
      rw [if_pos (by simp [touchesOld])]
      rw [List.map_cons, hcnt]
      exact cons_range_shift a _ _ (ih hrest (a + 1) b)
    · next r heq =>
      have ho : isOldSideLine l = true := by unfold isOldSideLine; rw [heq] <;> rfl
      have hcnt : countOldB (l :: rest) = countOldB rest + 1 := by
        simp [countOldB, List.countP_cons, ho]
      simp only [classify, heq]
      rw [List.filter_cons]
      rw [if_pos (by simp [touchesOld])]
      rw [List.map_cons, hcnt]
      exact cons_range_shift a _ _ (ih hrest (a + 1) (b + 1))
    · next heq =>
      have ho : isOldSideLine l = true := by unfold isOldSideLine; rw [heq] <;> rfl
      have hcnt : countOldB (l :: rest) = countOldB rest + 1 := by
        simp [countOldB, List.countP_cons, ho]
      simp only [classify, heq]
      rw [List.filter_cons]
      rw [if_pos (by simp [touchesOld])]
      rw [List.map_cons, hcnt]
      exact cons_range_shift a _ _ (ih hrest (a + 1) (b + 1))
    · exact absurd hmk (by simp)

/-- The new-side line numbers of a classified body are consecutive from the
initial counter. -/
theorem classify_new_map (body : List String)
    (hbody : ∀ l ∈ body, isContentLine l = true) (a b : Int) :
    ((classify a b body).filter touchesNew).map Line.newNum =
      (List.range (countNewB body)).map (fun k : Nat => b + (k : Int)) := by
  induction body generalizing a b with
  | nil => simp [classify, countNewB]
  | cons l rest ih =>
    have hl := hbody l (List.mem_cons_self ..)
    have hrest : ∀ x ∈ rest, isContentLine x = true :=
      fun x hx => hbody x (List.mem_cons_of_mem _ hx)
    simp only [isContentLine, Bool.and_eq_true, Option.isNone_iff_eq_none] at hl
    obtain ⟨⟨hof, hnf⟩, hmk⟩ := hl
    split at hmk
    · next r heq =>
      have hn : isNewSideLine l = true := by unfold isNewSideLine; rw [heq] <;> rfl
      have hcnt : countNewB (l :: rest) = countNewB rest + 1 := by
        simp [countNewB, List.countP_cons, hn]
      simp only [classify, heq]
      rw [List.filter_cons]
      rw [if_pos (by simp [touchesNew])]
      rw [List.map_cons, hcnt]
      exact cons_range_shift b _ _ (ih hrest a (b + 1))
    · next r heq =>
      have hn : isNewSideLine l = false := by unfold isNewSideLine; rw [heq] <;> rfl
      have hcnt : countNewB (l :: rest) = countNewB rest := by
        simp [countNewB, List.countP_cons, hn]
      simp only [classify, heq]
      rw [List.filter_cons]
      rw [if_neg (by simp [touchesNew])]
      rw [hcnt]
      exact ih hrest (a + 1) b
    · next r heq =>
      have hn : isNewSideLine l = true := by unfold isNewSideLine; rw [heq] <;> rfl
      have hcnt : countNewB (l :: rest) = countNewB rest + 1 := by
        simp [countNewB, List.countP_cons, hn]
      simp only [classify, heq]
      rw [List.filter_cons]
      rw [if_pos (by simp [touchesNew])]
      rw [List.map_cons, hcnt]
      exact cons_range_shift b _ _ (ih hrest (a + 1) (b + 1))
    · next heq =>
      have hn : isNewSideLine l = true := by unfold isNewSideLine; rw [heq] <;> rfl
      have hcnt : countNewB (l :: rest) = countNewB rest + 1 := by
        simp [countNewB, List.countP_cons, hn]
      simp only [classify, heq]
      rw [List.filter_cons]
      rw [if_pos (by simp [touchesNew])]
      rw [List.map_cons, hcnt]
      exact cons_range_shift b _ _ (ih hrest (a + 1) (b + 1))
    · exact absurd hmk (by simp)

/-- C2 (amended): for a hunk whose header declares `o`/`oc`/`n`/`nc` (a
missing count defaulting to 1) and whose body consists of marker-classified
lines that do not collide with the `---`/`+++` path-marker patterns, `Parse`
assigns `oldNum` values forming the strictly increasing sequence starting at
`o` over Removed-and-Context lines (an arithmetic progression `o, o+1, ...`),
`newNum` values forming the strictly increasing sequence starting at `n` over
Added-and-Context lines, and the number of lines touching each side equals
the body's count of such lines — which equals `oc`/`nc` whenever the body is
consistent with the header. -/
theorem parse_hunk_numbering (fh hdr : String) (body : List String)
    (op np : String) (caps : HunkCaps)
    (hfh : matchDiffHeader fh = some (op, np))
    (hm : matchHunkHeader hdr = some caps)
    (hbody : ∀ l ∈ body, isContentLine l = true) :
    ∃ hk : Hunk,
      parseLines (fh :: hdr :: body) =
        ⟨[{ oldPath := op, newPath := np, isNew := false, isDeleted := false,
            isRenamed := false, isBinary := false,
            language := detectLanguage np, hunks := [hk] }]⟩ ∧
      hk.oldStart = goAtoiClamp caps.oldStartDigits ∧
      hk.oldCount = (match caps.oldCountDigits with
        | none => 1
        | some d => goAtoiClamp d) ∧
      hk.newStart = goAtoiClamp caps.newStartDigits ∧
      hk.newCount = (match caps.newCountDigits with
        | none => 1
        | some d => goAtoiClamp d) ∧
      (hk.lines.filter touchesOld).map Line.oldNum =
        (List.range (countOldB body)).map (fun k : Nat => hk.oldStart + (k : Int)) ∧
      (hk.lines.filter touchesNew).map Line.newNum =
        (List.range (countNewB body)).map (fun k : Nat => hk.newStart + (k : Int)) ∧
      (hk.lines.filter touchesOld).length = countOldB body ∧
      (hk.lines.filter touchesNew).length = countNewB body ∧
      ((countOldB body : Int) = hk.oldCount →
        ((hk.lines.filter touchesOld).length : Int) = hk.oldCount) ∧
      ((countNewB body : Int) = hk.newCount →
        ((hk.lines.filter touchesNew).length : Int) = hk.newCount) := by
  refine ⟨{ oldStart := goAtoiClamp caps.oldStartDigits
            oldCount := match caps.oldCountDigits with
              | none => 1
              | some d => goAtoiClamp d
            newStart := goAtoiClamp caps.newStartDigits
            newCount := match caps.newCountDigits with
              | none => 1
              | some d => goAtoiClamp d
            lines := classify (goAtoiClamp caps.oldStartDigits)
              (goAtoiClamp caps.newStartDigits) body
            header := goTrimSpace (String.mk caps.trailing) },
          ?_, rfl, rfl, rfl, rfl, ?_, ?_, ?_, ?_, ?_, ?_⟩
  · unfold parseLines
    rw [List.foldl_cons, processLine_diffHeader hfh]
    rw [List.foldl_cons]
    rw [processLine_hunkHeader hm _ _ rfl]
    rw [foldl_body body hbody]
    rfl
  · exact classify_old_map body hbody _ _
  · exact classify_new_map body hbody _ _
  · have := congrArg List.length (classify_old_map body hbody
      (goAtoiClamp caps.oldStartDigits) (goAtoiClamp caps.newStartDigits))
    simpa using this
  · have := congrArg List.length (classify_new_map body hbody
      (goAtoiClamp caps.oldStartDigits) (goAtoiClamp caps.newStartDigits))
    simpa using this
  · intro hcons
    have := congrArg List.length (classify_old_map body hbody
      (goAtoiClamp caps.oldStartDigits) (goAtoiClamp caps.newStartDigits))
    simp at this
    rw [this, hcons]
  · intro hcons
    have := congrArg List.length (classify_new_map body hbody
      (goAtoiClamp caps.oldStartDigits) (goAtoiClamp caps.newStartDigits))
    simp at this
    rw [this, hcons]

/-- Witness for `parse_hunk_numbering`: header `@@ -3,2 +7,1 @@ fn main` with
body `-x` / ` y` yields old numbers `3, 4` and new number `7`. -/
theorem parse_hunk_numbering_witness :
    (parseLines ["diff --git a/f.go b/f.go", "@@ -3,2 +7,1 @@ fn main",
        "-x", " y"]).files.map
        (fun f => f.hunks.map (fun h =>
          ((h.lines.filter touchesOld).map Line.oldNum,
           (h.lines.filter touchesNew).map Line.newNum))) =
      [[([3, 4], [7])]] := by
  obtain ⟨hk, h1, h2, _, h4, _, h6, h7, _⟩ :=
    parse_hunk_numbering "diff --git a/f.go b/f.go" "@@ -3,2 +7,1 @@ fn main"
      ["-x", " y"] "f.go" "f.go"
      ⟨['3'], some ['2'], ['7'], some ['1'], " fn main".data⟩ rfl rfl (by decide)
  rw [h1]
  simp only [List.map_cons, List.map_nil]
  rw [h6, h7, h2, h4]
  decide

/-- C2 counterexample: the body line `--- x` is a removed line consistent
with the header `@@ -1,1 +1,0 @@` (one old-side line, zero new-side lines),
but the parser consumes it as an old-path marker line: the parsed hunk keeps
`oldCount = 1` yet contains zero lines (and the file's `oldPath` has been
overwritten to `x`), so no `oldNum` sequence of length `oc` is assigned. -/
theorem parse_numbering_counterexample :
    (parseLines ["diff --git a/f b/f", "@@ -1,1 +1,0 @@", "--- x"]).files.map
        (fun f => (f.oldPath, f.hunks.map (fun h => (h.oldCount, h.lines.length)))) =
      [("x", [(1, 0)])] := by
  decide

/-- C6 (amended): inside an open hunk, a `+`-prefixed line that does not
match the `+++` path-marker pattern is appended as Added (new counter
assigned then incremented), a `-`-prefixed line that does not match the `---`
pattern is appended as Removed, a ` `-prefixed line and a literal empty line
are appended as Context (the empty line with empty content) advancing both
counters — and every other line is skipped: nothing is appended and no
counter advances. -/
theorem parse_line_classification (files : List FileDiff) (f : FileDiff)
    (hk : Hunk) (a b : Int) (line : String) :
    (∀ r, line.data = '+' :: r → matchNewFileL line.data = none →
      processLine ⟨files, some f, some hk, a, b⟩ line =
        ⟨files, some f,
         some { hk with lines := hk.lines ++ [⟨.added, String.mk r, 0, b⟩] },
         a, b + 1⟩) ∧
    (∀ r, line.data = '-' :: r → matchOldFileL line.data = none →
      processLine ⟨files, some f, some hk, a, b⟩ line =
        ⟨files, some f,
         some { hk with lines := hk.lines ++ [⟨.removed, String.mk r, a, 0⟩] },
         a + 1, b⟩) ∧
    (∀ r, line.data = ' ' :: r →
      processLine ⟨files, some f, some hk, a, b⟩ line =
        ⟨files, some f,
         some { hk with lines := hk.lines ++ [⟨.context, String.mk r, a, b⟩] },
         a + 1, b + 1⟩) ∧
    (line.data = [] →
      processLine ⟨files, some f, some hk, a, b⟩ line =
        ⟨files, some f,
         some { hk with lines := hk.lines ++ [⟨.context, "", a, b⟩] },
         a + 1, b + 1⟩) ∧
    (unrecognizedLine line = true →
      processLine ⟨files, some f, some hk, a, b⟩ line =
        ⟨files, some f, some hk, a, b⟩) :=
  ⟨fun _ h1 h2 => processLine_plusLine h1 h2 files f hk a b,
   fun _ h1 h2 => processLine_minusLine h1 h2 files f hk a b,
   fun _ h1 => processLine_spaceLine h1 files f hk a b,
   fun h1 => processLine_emptyLine h1 files f hk a b,
   fun h => processLine_skip h _⟩

/-- Witness for `parse_line_classification` at a concrete state and lines. -/
theorem parse_line_classification_witness :
    processLine ⟨[], some ⟨"f", "f", false, false, false, false, "text", []⟩,
        some ⟨1, 2, 5, 2, [], ""⟩, 1, 5⟩ "+abc" =
      ⟨[], some ⟨"f", "f", false, false, false, false, "text", []⟩,
       some ⟨1, 2, 5, 2, [⟨.added, "abc", 0, 5⟩], ""⟩, 1, 6⟩ ∧
    processLine ⟨[], some ⟨"f", "f", false, false, false, false, "text", []⟩,
        some ⟨1, 2, 5, 2, [], ""⟩, 1, 5⟩ "\\ No newline at end of file" =
      ⟨[], some ⟨"f", "f", false, false, false, false, "text", []⟩,
       some ⟨1, 2, 5, 2, [], ""⟩, 1, 5⟩ :=
  ⟨(parse_line_classification [] _ _ 1 5 "+abc").1 ['a', 'b', 'c'] rfl rfl,
   (parse_line_classification [] _ _ 1 5
      "\\ No newline at end of file").2.2.2.2 (by decide)⟩

/-- C6 counterexample: the claim says every non-`+`/`-` line inside a hunk —
in particular `\ No newline at end of file` — is appended as a Context line.
The parser appends only ` `-prefixed or empty lines; the `\`-line is skipped
and the parsed hunk has zero lines. -/
theorem parse_classify_counterexample :
    (parseLines ["diff --git a/f b/f", "@@ -1,2 +1,2 @@",
        "\\ No newline at end of file"]).files.map
      (fun f => f.hunks.map Hunk.lines) = [[[]]] := by
  decide

/-- The scanner reports no error when every segment is below the token-size
cap. -/
theorem goScanLines_err_none (segs : List (List Char))
    (h : ∀ seg ∈ segs, utf8Len seg < MaxScanTokenSize) :
    (goScanLines segs).2 = none := by
  induction segs with
  | nil => rfl
  | cons seg rest ih =>
    cases rest with
    | nil =>
      have hseg := h seg (List.mem_cons_self ..)
      rw [goScanLines, if_neg (by omega)]
      split <;> rfl
    | cons seg2 rest2 =>
      have hseg := h seg (List.mem_cons_self ..)
      rw [goScanLines, if_neg (by omega)]
      exact ih (fun x hx => h x (List.mem_cons_of_mem _ hx))

/-- The only error the scanner can report is `bufio.ErrTooLong`. -/
theorem goScanLines_err_only (segs : List (List Char)) :
    (goScanLines segs).2 = none ∨
    (goScanLines segs).2 = some "bufio.Scanner: token too long" := by
  induction segs with
  | nil => exact Or.inl rfl
  | cons seg rest ih =>
    cases rest with
    | nil =>
      rw [goScanLines]
      split
      · exact Or.inr rfl
      · split
        · exact Or.inl rfl
        · exact Or.inl rfl
    | cons seg2 rest2 =>
      rw [goScanLines]
      split
      · exact Or.inr rfl
      · exact ih

/-- A single over-long segment aborts the scan with `ErrTooLong` and no
tokens. -/
theorem goScanLines_overlong_single (seg : List Char)
    (h : MaxScanTokenSize ≤ utf8Len seg) :
    goScanLines [seg] = ([], some "bufio.Scanner: token too long") := by
  rw [goScanLines, if_pos h]

/-- The error component of `Parse`, unfolded. -/
theorem ParseE_snd (s : String) :
    (ParseE s).2 = (goScanLines (splitNl s.data)).2 := rfl

/-- The file list of `Parse`, unfolded. -/
theorem ParseE_fst_files (s : String) :
    (ParseE s).1.files = (parseLines (goScanLines (splitNl s.data)).1).files :=
  rfl

/-- A newline-free input is a single segment. -/
theorem splitNl_replicate_a (n : Nat) :
    splitNl (List.replicate n 'a') = [List.replicate n 'a'] := by
  induction n with
  | zero => rfl
  | succ n ih =>
    rw [List.replicate_succ]
    have step : splitNl ('a' :: List.replicate n 'a') =
        match splitNl (List.replicate n 'a') with
        | [] => [['a']]
        | t :: ts => ('a' :: t) :: ts := rfl
    rw [step, ih, ← List.replicate_succ, List.replicate_succ]

/-- `'a'` is one UTF-8 byte. -/
theorem utf8Len_replicate_a (n : Nat) :
    utf8Len (List.replicate n 'a') = n := by
  induction n with
  | zero => rfl
  | succ n ih =>
    rw [List.replicate_succ]
    show (('a' :: List.replicate n 'a').flatMap charUtf8).length = n + 1
    rw [List.flatMap_cons, List.length_append,
      show (charUtf8 'a').length = 1 from rfl,
      show ((List.replicate n 'a').flatMap charUtf8).length =
        utf8Len (List.replicate n 'a') from rfl, ih]
    omega

/-- C7 (amended): `Parse` never fails on unrecognized input lines — a line no
branch recognizes is skipped, and deleting it from the input leaves the
result unchanged wherever it occurs — and it constructs no parse error of its
own (the `strconv.Atoi` errors at the hunk header are discarded with `_`):
the returned error is `scanner.Err()`, nil whenever every line of the input
is below `bufio.MaxScanTokenSize` (64 KiB), and `bufio.ErrTooLong` is the
only other possible value. -/
theorem parse_never_fails :
    (∀ s : String, (∀ seg ∈ splitNl s.data, utf8Len seg < MaxScanTokenSize) →
      (ParseE s).2 = none) ∧
    (∀ s : String, (ParseE s).2 = none ∨
      (ParseE s).2 = some "bufio.Scanner: token too long") ∧
    ∀ (ls1 ls2 : List String) (g : String), unrecognizedLine g = true →
      parseLines (ls1 ++ g :: ls2) = parseLines (ls1 ++ ls2) := by
  refine ⟨?_, ?_, ?_⟩
  · intro s hshort
    show (goScanLines (splitNl s.data)).2 = none
    exact goScanLines_err_none _ hshort
  · intro s
    show (goScanLines (splitNl s.data)).2 = none ∨
      (goScanLines (splitNl s.data)).2 = some "bufio.Scanner: token too long"
    exact goScanLines_err_only _
  · intro ls1 ls2 g hg
    unfold parseLines
    rw [List.foldl_append, List.foldl_append, List.foldl_cons,
      processLine_skip hg]

/-- Witness for `parse_never_fails` on a short concrete input and a concrete
diff containing a `\ No newline at end of file` marker. -/
theorem parse_never_fails_witness :
    (ParseE "diff --git a/a b/b\njunk &*#").2 = none ∧
    parseLines (["diff --git a/a b/b"] ++
        "\\ No newline at end of file" :: ["@@ -1 +1 @@"]) =
      parseLines (["diff --git a/a b/b"] ++ ["@@ -1 +1 @@"]) :=
  ⟨parse_never_fails.1 _ (by decide), parse_never_fails.2.2 _ _ _ (by decide)⟩

/-- C7 counterexample: the claim promises a nil error for every input free of
malformed hunk headers, but a single 64 KiB line of `a`s — which matches no
hunk-header syntax at all — makes the scanner abort with `bufio.ErrTooLong`,
which `Parse` returns. -/
theorem parse_overlong_line_counterexample :
    matchHunkHeaderL (List.replicate MaxScanTokenSize 'a') = none ∧
    (ParseE (String.mk (List.replicate MaxScanTokenSize 'a'))).2 =
      some "bufio.Scanner: token too long" := by
  constructor
  · rfl
  · rw [ParseE_snd,
      show (String.mk (List.replicate MaxScanTokenSize 'a')).data =
        List.replicate MaxScanTokenSize 'a' from rfl,
      splitNl_replicate_a,
      goScanLines_overlong_single _ (by rw [utf8Len_replicate_a])]

/-- C10 (amended): an input string none of whose scanned lines matches the
git file-header pattern parses to a diff with no files — hunk headers,
`+`/`-` lines and status lines before the first file header are all ignored
— and the error is nil provided every line of the input is below the
scanner's 64 KiB token cap. -/
theorem parse_no_file_header (s : String)
    (h : ∀ l ∈ goSplitLines s, matchDiffHeaderL l.data = none) :
    (ParseE s).1.files = [] ∧
    ((∀ seg ∈ splitNl s.data, utf8Len seg < MaxScanTokenSize) →
      (ParseE s).2 = none) := by
  refine ⟨?_, fun hshort => goScanLines_err_none _ hshort⟩
  show (parseLines (goSplitLines s)).files = []
  have main : ∀ ls : List String, (∀ l ∈ ls, matchDiffHeaderL l.data = none) →
      ls.foldl processLine initState = initState := by
    intro ls
    induction ls with
    | nil => intro _; rfl
    | cons l rest ih =>
      intro hh
      rw [List.foldl_cons]
      have h0 : processLine initState l = initState := by
        unfold processLine
        rw [hh l (List.mem_cons_self ..)]
        rfl
      rw [h0]
      exact ih (fun x hx => hh x (List.mem_cons_of_mem _ hx))
  unfold parseLines
  rw [main _ h]
  rfl

/-- Witness for `parse_no_file_header`: garbage, a hunk header, a `+` line
and a `---` marker with no preceding file header parse to an empty diff with
a nil error. -/
theorem parse_no_file_header_witness :
    (ParseE "hello\n@@ -1,2 +3,4 @@\n+x\n--- a/q").1.files = [] ∧
    (ParseE "hello\n@@ -1,2 +3,4 @@\n+x\n--- a/q").2 = none :=
  ⟨(parse_no_file_header _ (by decide)).1,
   (parse_no_file_header _ (by decide)).2 (by decide)⟩

/-- C10 counterexample: a single 64 KiB line of `a`s matches no file-header
pattern, and the parsed diff indeed has no files, but the error is
`bufio.ErrTooLong` rather than the nil the claim promises. -/
theorem parse_no_file_header_counterexample :
    matchDiffHeaderL (List.replicate MaxScanTokenSize 'a') = none ∧
    (ParseE (String.mk (List.replicate MaxScanTokenSize 'a'))).1.files = [] ∧
    (ParseE (String.mk (List.replicate MaxScanTokenSize 'a'))).2 =
      some "bufio.Scanner: token too long" := by
  have hscan : goScanLines (splitNl (List.replicate MaxScanTokenSize 'a')) =
      ([], some "bufio.Scanner: token too long") := by
    rw [splitNl_replicate_a,
      goScanLines_overlong_single _ (by rw [utf8Len_replicate_a])]
  have hdata : (String.mk (List.replicate MaxScanTokenSize 'a')).data =
      List.replicate MaxScanTokenSize 'a' := rfl
  refine ⟨rfl, ?_, ?_⟩
  · rw [ParseE_fst_files, hdata, hscan]
    rfl
  · rw [ParseE_snd, hdata, hscan]

/-! ## The deterministic title -/

/-- C4 (amended): the deterministically generated group title follows the
fixed precedence added > deleted > renamed > "Update `<hunk header>` in
`<path>`" (when the hunk carries a header) > generic "Modify `<path>`"; in
particular, for a file flagged both renamed and added, the added form
wins. -/
theorem generateTitle_precedence (f : FileDiff) (h : Hunk) :
    (f.isNew = true → generateTitle f h = "Add " ++ f.newPath) ∧
    (f.isNew = false → f.isDeleted = true →
      generateTitle f h = "Remove " ++ f.oldPath) ∧
    (f.isNew = false → f.isDeleted = false → f.isRenamed = true →
      generateTitle f h = "Rename " ++ f.oldPath ++ " to " ++ f.newPath) ∧
    (f.isNew = false → f.isDeleted = false → f.isRenamed = false →
      h.header ≠ "" → generateTitle f h = "Update " ++ h.header ++ " in " ++ f.newPath) ∧
    (f.isNew = false → f.isDeleted = false → f.isRenamed = false →
      h.header = "" → generateTitle f h = "Modify " ++ f.newPath) := by
  refine ⟨?_, ?_, ?_, ?_, ?_⟩ <;> intros <;> simp_all [generateTitle]

/-- Witness for `generateTitle_precedence` on a file flagged both renamed and
added: the added form is produced. -/
theorem generateTitle_precedence_witness :
    generateTitle
        ⟨"a.txt", "b.txt", true, false, true, false, "text", []⟩
        ⟨1, 1, 1, 1, [], "hdr"⟩ =
      "Add " ++ "b.txt" :=
  (generateTitle_precedence
    ⟨"a.txt", "b.txt", true, false, true, false, "text", []⟩
    ⟨1, 1, 1, 1, [], "hdr"⟩).1 rfl

/-- C4 counterexample: a file flagged both renamed and added gets the added
form, not the renamed form the claim's precedence (renamed > added) would
require. -/
theorem generateTitle_counterexample :
    generateTitle
        ⟨"a.txt", "b.txt", true, false, true, false, "text", []⟩
        ⟨1, 1, 1, 1, [], ""⟩ = "Add b.txt" ∧
    generateTitle
        ⟨"a.txt", "b.txt", true, false, true, false, "text", []⟩
        ⟨1, 1, 1, 1, [], ""⟩ ≠ "Rename a.txt to b.txt" := by
  decide

/-! ## The hunk-reference enumeration -/

theorem mem_hunkPairs (i : Nat) (hs : List Hunk) (p : Nat × Nat) :
    ∀ j, p ∈ hunkPairs i j hs ↔ p.1 = i ∧ j ≤ p.2 ∧ p.2 < j + hs.length := by
  induction hs with
  | nil => intro j; simp [hunkPairs]
  | cons h rest ih =>
    intro j
    simp only [hunkPairs, List.mem_cons, ih (j + 1), List.length_cons]
    constructor
    · rintro (rfl | ⟨h1, h2, h3⟩)
      · exact ⟨rfl, le_refl _, by omega⟩
      · exact ⟨h1, by omega, by omega⟩
    · rintro ⟨h1, h2, h3⟩
      by_cases hj : p.2 = j
      · left
        cases p
        simp_all
      · right
        exact ⟨h1, by omega, by omega⟩

theorem length_hunkPairs (i : Nat) (hs : List Hunk) :
    ∀ j, (hunkPairs i j hs).length = hs.length := by
  induction hs with
  | nil => intro j; simp [hunkPairs]
  | cons h rest ih => intro j; simp [hunkPairs, ih (j + 1)]

theorem nodup_hunkPairs (i : Nat) (hs : List Hunk) :
    ∀ j, (hunkPairs i j hs).Nodup := by
  induction hs with
  | nil => intro j; simp [hunkPairs]
  | cons h rest ih =>
    intro j
    simp only [hunkPairs, List.nodup_cons]
    refine ⟨?_, ih (j + 1)⟩
    intro hmem
    rw [mem_hunkPairs] at hmem
    omega

theorem mem_filePairs (fs : List FileDiff) (p : Nat × Nat) :
    ∀ i, p ∈ filePairs i fs ↔
      ∃ k f, p.1 = i + k ∧ fs.get? k = some f ∧ p.2 < f.hunks.length := by
  induction fs with
  | nil => intro i; simp [filePairs]
  | cons f rest ih =>
    intro i
    simp only [filePairs, List.mem_append, mem_hunkPairs, ih (i + 1)]
    constructor
    · rintro (⟨h1, _, h3⟩ | ⟨k, f', h1, h2, h3⟩)
      · exact ⟨0, f, by omega, rfl, by omega⟩
      · exact ⟨k + 1, f', by omega, by simpa using h2, h3⟩
    · rintro ⟨k, f', h1, h2, h3⟩
      cases k with
      | zero =>
        left
        simp only [List.get?_cons_zero, Option.some.injEq] at h2
        subst h2
        exact ⟨by omega, by omega, by omega⟩
      | succ k' =>
        right
        exact ⟨k', f', by omega, by simpa using h2, h3⟩

theorem mem_allPairs (d : Diff) (p : Nat × Nat) :
    p ∈ allPairs d ↔ inRangePair d p := by
  rw [allPairs, mem_filePairs]
  unfold inRangePair
  constructor
  · rintro ⟨k, f, h1, h2, h3⟩
    refine ⟨f, ?_, h3⟩
    have : p.1 = k := by omega
    rw [this]
    exact h2
  · rintro ⟨f, h2, h3⟩
    exact ⟨p.1, f, by omega, h2, h3⟩

theorem nodup_filePairs (fs : List FileDiff) :
    ∀ i, (filePairs i fs).Nodup := by
  induction fs with
  | nil => intro i; simp [filePairs]
  | cons f rest ih =>
    intro i
    refine List.Nodup.append (nodup_hunkPairs i f.hunks 0) (ih (i + 1)) ?_
    intro p hp hq
    rw [mem_hunkPairs] at hp
    rw [mem_filePairs] at hq
    obtain ⟨k, f', h1, _, _⟩ := hq
    omega

theorem nodup_allPairs (d : Diff) : (allPairs d).Nodup :=
  nodup_filePairs d.files 0

theorem length_filePairs (fs : List FileDiff) :
    ∀ i, (filePairs i fs).length = (fs.map (fun f => f.hunks.length)).sum := by
  induction fs with
  | nil => intro i; simp [filePairs]
  | cons f rest ih =>
    intro i
    simp [filePairs, length_hunkPairs, ih (i + 1)]

theorem length_allPairs (d : Diff) : (allPairs d).length = totalHunks d :=
  length_filePairs d.files 0

theorem refs_append (gs1 gs2 : List SemanticGroup) :
    refs (gs1 ++ gs2) = refs gs1 ++ refs gs2 := by
  simp [refs]

theorem refs_cons (g : SemanticGroup) (gs : List SemanticGroup) :
    refs (g :: gs) =
      g.hunks.map (fun gh => (gh.fileIdx, gh.hunkIdx)) ++ refs gs := by
  simp [refs]

/-! ## The fallback sweep -/

theorem refs_fallbackHunks (f : FileDiff) (i : Nat) (hs : List Hunk) :
    ∀ j, refs (fallbackHunks f i j hs) = hunkPairs i j hs := by
  induction hs with
  | nil => intro j; simp [fallbackHunks, hunkPairs, refs]
  | cons h rest ih =>
    intro j
    simp [fallbackHunks, hunkPairs, refs, ← ih (j + 1)]

theorem refs_fallbackFiles (fs : List FileDiff) :
    ∀ i, refs (fallbackFiles i fs) = filePairs i fs := by
  induction fs with
  | nil => intro i; simp [fallbackFiles, filePairs, refs]
  | cons f rest ih =>
    intro i
    rw [fallbackFiles, filePairs, refs_append, refs_fallbackHunks, ih (i + 1)]

theorem fallbackHunks_singletons (f : FileDiff) (i : Nat) (hs : List Hunk) :
    ∀ j, ∀ g ∈ fallbackHunks f i j hs, g.hunks.length = 1 := by
  induction hs with
  | nil => intro j g hg; simp [fallbackHunks] at hg
  | cons h rest ih =>
    intro j g hg
    rw [fallbackHunks] at hg
    rcases List.mem_cons.mp hg with rfl | hg
    · rfl
    · exact ih (j + 1) g hg

theorem fallbackFiles_singletons (fs : List FileDiff) :
    ∀ i, ∀ g ∈ fallbackFiles i fs, g.hunks.length = 1 := by
  induction fs with
  | nil => intro i g hg; simp [fallbackFiles] at hg
  | cons f rest ih =>
    intro i g hg
    rcases List.mem_append.mp hg with hg | hg
    · exact fallbackHunks_singletons f i f.hunks 0 g hg
    · exact ih (i + 1) g hg

theorem refs_sweepHunks (used : List (Nat × Nat)) (f : FileDiff) (i : Nat)
    (hs : List Hunk) :
    ∀ j, refs (sweepHunks used f i j hs) =
      (hunkPairs i j hs).filter (fun p => decide (p ∉ used)) := by
  induction hs with
  | nil => intro j; simp [sweepHunks, hunkPairs, refs]
  | cons h rest ih =>
    intro j
    by_cases hmem : (i, j) ∈ used
    · rw [sweepHunks, if_pos hmem, hunkPairs, List.filter_cons,
        if_neg (by simp [hmem]), ih (j + 1)]
    · rw [sweepHunks, if_neg hmem, hunkPairs, List.filter_cons,
        if_pos (by simp [hmem]), refs_cons, ih (j + 1)]
      rfl

theorem refs_sweepFiles (used : List (Nat × Nat)) (fs : List FileDiff) :
    ∀ i, refs (sweepFiles used i fs) =
      (filePairs i fs).filter (fun p => decide (p ∉ used)) := by
  induction fs with
  | nil => intro i; simp [sweepFiles, filePairs, refs]
  | cons f rest ih =>
    intro i
    rw [sweepFiles, filePairs, refs_append, List.filter_append,
      refs_sweepHunks, ih (i + 1)]

theorem sweepHunks_singletons (used : List (Nat × Nat)) (f : FileDiff)
    (i : Nat) (hs : List Hunk) :
    ∀ j, ∀ g ∈ sweepHunks used f i j hs, g.hunks.length = 1 := by
  induction hs with
  | nil => intro j g hg; simp [sweepHunks] at hg
  | cons h rest ih =>
    intro j g hg
    rw [sweepHunks] at hg
    split at hg
    · exact ih (j + 1) g hg
    · rcases List.mem_cons.mp hg with rfl | hg
      · rfl
      · exact ih (j + 1) g hg

theorem sweepFiles_singletons (used : List (Nat × Nat)) (fs : List FileDiff) :
    ∀ i, ∀ g ∈ sweepFiles used i fs, g.hunks.length = 1 := by
  induction fs with
  | nil => intro i g hg; simp [sweepFiles] at hg
  | cons f rest ih =>
    intro i g hg
    rcases List.mem_append.mp hg with hg | hg
    · exact sweepHunks_singletons used f i f.hunks 0 g hg
    · exact ih (i + 1) g hg

/-! ## The reconciliation pass -/

/-- The inner hunk-index loop extends `used` and the current group's hunk
list by the same duplicate-free batch of in-range, previously unused
pairs. -/
theorem collectFile_spec (fileIdx hunksLen : Nat) (hidxs : List Int) :
    ∀ (used : List (Nat × Nat)) (cur : List GroupedHunk),
    ∃ δ : List (Nat × Nat),
      (collectFile fileIdx hunksLen hidxs used cur).1 = used ++ δ ∧
      (collectFile fileIdx hunksLen hidxs used cur).2 =
        cur ++ δ.map (fun p => ⟨p.1, p.2⟩) ∧
      δ.Nodup ∧
      ∀ p ∈ δ, p ∉ used ∧ p.1 = fileIdx ∧ p.2 < hunksLen := by
  induction hidxs with
  | nil =>
    intro used cur
    refine ⟨[], ?_, ?_, ?_, ?_⟩ <;> simp [collectFile]
  | cons hi rest ih =>
    intro used cur
    rw [collectFile]
    split
    · exact ih used cur
    · split
      · split
        · exact ih used cur
        · next hlt hmem =>
          obtain ⟨δ, e1, e2, hnd, hall⟩ :=
            ih (used ++ [(fileIdx, hi.toNat)]) (cur ++ [⟨fileIdx, hi.toNat⟩])
          refine ⟨(fileIdx, hi.toNat) :: δ, ?_, ?_, ?_, ?_⟩
          · rw [e1, List.append_assoc]
            rfl
          · rw [e2, List.append_assoc]
            rfl
          · rw [List.nodup_cons]
            refine ⟨?_, hnd⟩
            intro hc
            have := (hall _ hc).1
            simp at this
          · intro p hp
            rcases List.mem_cons.mp hp with rfl | hp
            · exact ⟨hmem, rfl, hlt⟩
            · have := hall p hp
              refine ⟨fun hc => this.1 (List.mem_append_left _ hc), this.2⟩
      · exact ih used cur

/-- The file-index loop of one proposed group extends `used` and the group's
hunk list by the same duplicate-free batch of in-range, previously unused
pairs. -/
theorem collectGroup_spec (d : Diff) (fidxs : List Int)
    (hidxss : List (List Int)) :
    ∀ (i : Nat) (used : List (Nat × Nat)) (cur : List GroupedHunk),
    ∃ δ : List (Nat × Nat),
      (collectGroup d fidxs hidxss i used cur).1 = used ++ δ ∧
      (collectGroup d fidxs hidxss i used cur).2 =
        cur ++ δ.map (fun p => ⟨p.1, p.2⟩) ∧
      δ.Nodup ∧
      ∀ p ∈ δ, p ∉ used ∧ inRangePair d p := by
  induction fidxs with
  | nil =>
    intro i used cur
    refine ⟨[], ?_, ?_, ?_, ?_⟩ <;> simp [collectGroup]
  | cons fi rest ih =>
    intro i used cur
    rw [collectGroup]
    split
    · exact ih (i + 1) used cur
    · split
      · exact ih (i + 1) used cur
      · next f hget =>
        dsimp only
        obtain ⟨δ1, e1, e2, hnd1, hall1⟩ :=
          collectFile_spec fi.toNat f.hunks.length
            (match hidxss.get? i with
              | some l => l
              | none => (List.range f.hunks.length).map Int.ofNat) used cur
        rw [e1, e2]
        obtain ⟨δ2, e3, e4, hnd2, hall2⟩ :=
          ih (i + 1) (used ++ δ1) (cur ++ δ1.map (fun p => ⟨p.1, p.2⟩))
        refine ⟨δ1 ++ δ2, ?_, ?_, ?_, ?_⟩
        · rw [e3, List.append_assoc]
        · rw [e4, List.map_append, List.append_assoc]
        · refine List.Nodup.append hnd1 hnd2 ?_
          intro p hp hq
          exact (hall2 p hq).1 (List.mem_append_right _ hp)
        · intro p hp
          rcases List.mem_append.mp hp with hp | hp
          · obtain ⟨hnu, hfst, hlt⟩ := hall1 p hp
            refine ⟨hnu, ⟨f, ?_, hlt⟩⟩
            rw [hfst]
            exact hget
          · obtain ⟨hnu, hin⟩ := hall2 p hp
            exact ⟨fun hc => hnu (List.mem_append_left _ hc), hin⟩

/-- The proposed-group loop: the final `used` grows by exactly the flattened
references of the emitted groups, which are duplicate-free, in range, and
disjoint from the incoming `used`; emitted groups are nonempty. -/
theorem reconcileGroups_spec (d : Diff) (ags : List AIGroup) :
    ∀ used : List (Nat × Nat),
    ∃ δ : List (Nat × Nat),
      (reconcileGroups d ags used).1 = used ++ δ ∧
      refs (reconcileGroups d ags used).2 = δ ∧
      δ.Nodup ∧
      (∀ p ∈ δ, p ∉ used ∧ inRangePair d p) ∧
      ∀ g ∈ (reconcileGroups d ags used).2, g.hunks ≠ [] := by
  induction ags with
  | nil =>
    intro used
    refine ⟨[], ?_, ?_, ?_, ?_, ?_⟩ <;> simp [reconcileGroups, refs]
  | cons ag rest ih =>
    intro used
    rw [reconcileGroups]
    dsimp only
    obtain ⟨δ1, e1, e2, hnd1, hall1⟩ :=
      collectGroup_spec d ag.fileIndices ag.hunkIndices 0 used []
    rw [e1, e2]
    obtain ⟨δ2, e3, e4, hnd2, hall2, hne⟩ := ih (used ++ δ1)
    simp only [List.nil_append]
    refine ⟨δ1 ++ δ2, ?_, ?_, ?_, ?_, ?_⟩
    · rw [e3, List.append_assoc]
    · rw [refs_append, e4]
      by_cases hδ : δ1 = []
      · subst hδ
        simp [refs]
      · rw [if_neg (by simpa using hδ)]
        rw [refs_cons]
        have hid : ∀ l : List (Nat × Nat),
            l.map ((fun gh : GroupedHunk => (gh.fileIdx, gh.hunkIdx)) ∘
              fun p : Nat × Nat => (⟨p.1, p.2⟩ : GroupedHunk)) = l := by
          intro l
          induction l with
          | nil => rfl
          | cons x xs ihl => simp [ihl]
        simp only [List.map_map]
        rw [hid]
        simp [refs]
    · refine List.Nodup.append hnd1 hnd2 ?_
      intro p hp hq
      exact (hall2 p hq).1 (List.mem_append_right _ hp)
    · intro p hp
      rcases List.mem_append.mp hp with hp | hp
      · exact hall1 p hp
      · obtain ⟨hnu, hin⟩ := hall2 p hp
        exact ⟨fun hc => hnu (List.mem_append_left _ hc), hin⟩
    · intro g hg
      rcases List.mem_append.mp hg with hg | hg
      · split at hg
        · simp at hg
        · next hne2 =>
          rcases List.mem_singleton.mp hg with rfl
          simpa using hne2
      · exact hne g hg

/-- `buildGroups` yields a permutation of all pairs and no empty group. -/
theorem buildGroups_partition (d : Diff) (analysis : SemanticAnalysis) :
    List.Perm (refs (buildGroups d analysis)) (allPairs d) ∧
    ∀ g ∈ buildGroups d analysis, g.hunks ≠ [] := by
  obtain ⟨δ, e1, e2, hnd, hall, hne⟩ :=
    reconcileGroups_spec d analysis.groups []
  rw [List.nil_append] at e1
  constructor
  · rw [buildGroups]
    rw [refs_append, e2, e1, refs_sweepFiles]
    have hsub : ∀ p ∈ δ, p ∈ allPairs d := by
      intro p hp
      exact (mem_allPairs d p).mpr (hall p hp).2
    have h2 : List.Perm δ ((allPairs d).filter (fun p => decide (p ∈ δ))) := by
      rw [List.perm_ext_iff_of_nodup hnd ((nodup_allPairs d).filter _)]
      intro a
      simp only [List.mem_filter, decide_eq_true_eq]
      exact ⟨fun ha => ⟨hsub a ha, ha⟩, fun ha => ha.2⟩
    have h1 := List.filter_append_perm (fun p => decide (p ∈ δ)) (allPairs d)
    have hfe : (allPairs d).filter (fun p => !decide (p ∈ δ)) =
        (allPairs d).filter (fun p => decide (p ∉ δ)) := by
      simp
    refine List.Perm.trans ?_ h1
    rw [hfe]
    exact h2.append_right _
  · intro g hg
    rw [buildGroups] at hg
    rcases List.mem_append.mp hg with hg | hg
    · exact hne g hg
    · have := sweepFiles_singletons (reconcileGroups d analysis.groups []).1
        d.files 0 g hg
      intro hc
      rw [hc] at this
      simp at this

/-- Evaluating `singleHunkGroup` on a one-file one-hunk diff. -/
theorem singleHunkGroup_eval (d : Diff) (describe : Option String)
    (f : FileDiff) (h0 : Hunk) (hfs : d.files = [f]) (hh0 : f.hunks = [h0]) :
    singleHunkGroup d describe =
      ([{ title := generateTitle f h0
          description := match describe with
            | some v => v
            | none => "Changes to " ++ f.newPath
          hunks := [⟨0, 0⟩] }], none) := by
  rw [singleHunkGroup, hfs]
  dsimp only
  rw [hh0]

/-- C1: for every parsed diff and every analyzer outcome (well-formed,
malformed/absent — the `none` outcome — duplicate-bearing or out-of-range),
the flattened `(fileIndex, hunkIndex)` references of the returned groups are
a permutation of the set of all hunk pairs of the diff — every hunk appears
in exactly one group — and no returned group is empty (a diff with zero
hunks yields zero groups, covered by `allPairs d = []`). -/
theorem groupDiff_partition (d : Diff) (analyze : Option SemanticAnalysis)
    (describe : Option String) :
    List.Perm (refs (GroupDiff d analyze describe).1) (allPairs d) ∧
    ∀ g ∈ (GroupDiff d analyze describe).1, g.hunks ≠ [] := by
  rw [GroupDiff.eq_def]
  split
  · next hlen =>
    have hfs : d.files = [] := List.length_eq_zero.mp hlen
    constructor
    · simp [refs, allPairs, hfs, filePairs]
    · simp
  split
  · next hth =>
    have hall : allPairs d = [] := by
      have hl := length_allPairs d
      rw [hth] at hl
      exact List.length_eq_zero.mp hl
    constructor
    · simp [refs, hall]
    · simp
  split
  · next hcond =>
    obtain ⟨hth, hlen⟩ := hcond
    obtain ⟨f, hfs⟩ := List.length_eq_one.mp hlen
    have hhs : f.hunks.length = 1 := by
      rw [totalHunks, hfs] at hth
      simpa using hth
    obtain ⟨h0, hh0⟩ := List.length_eq_one.mp hhs
    have hap : allPairs d = [(0, 0)] := by
      rw [allPairs, hfs, filePairs, hh0]
      simp [filePairs, hunkPairs]
    rw [singleHunkGroup_eval d describe f h0 hfs hh0]
    constructor
    · rw [hap]
      simp [refs]
    · intro g hg
      simp only [List.mem_singleton] at hg
      subst hg
      simp
  · split
    · constructor
      · rw [show ((fallbackGrouping d, (none : Option String)).1) =
            fallbackFiles 0 d.files from rfl]
        rw [refs_fallbackFiles]
        exact List.Perm.refl _
      · intro g hg
        have := fallbackFiles_singletons d.files 0 g hg
        intro hc
        rw [hc] at this
        simp at this
    · next an =>
      exact buildGroups_partition d an

/-- Witness for `groupDiff_partition`: a two-file diff with three hunks and
an analyzer response that duplicates a pair and cites an out-of-range file
still covers each pair exactly once. -/
theorem groupDiff_partition_witness :
    List.Perm
      (refs (GroupDiff
        ⟨[⟨"a", "a", false, false, false, false, "text",
           [⟨1, 1, 1, 1, [], ""⟩, ⟨5, 1, 5, 1, [], ""⟩]⟩,
          ⟨"b", "b", false, false, false, false, "text",
           [⟨2, 1, 2, 1, [], ""⟩]⟩]⟩
        (some ⟨[⟨"T", "D", [0, 9, 0], [[1, 1], [0]]⟩]⟩) none).1)
      (allPairs
        ⟨[⟨"a", "a", false, false, false, false, "text",
           [⟨1, 1, 1, 1, [], ""⟩, ⟨5, 1, 5, 1, [], ""⟩]⟩,
          ⟨"b", "b", false, false, false, false, "text",
           [⟨2, 1, 2, 1, [], ""⟩]⟩]⟩) :=
  (groupDiff_partition
    ⟨[⟨"a", "a", false, false, false, false, "text",
       [⟨1, 1, 1, 1, [], ""⟩, ⟨5, 1, 5, 1, [], ""⟩]⟩,
      ⟨"b", "b", false, false, false, false, "text",
       [⟨2, 1, 2, 1, [], ""⟩]⟩]⟩
    (some ⟨[⟨"T", "D", [0, 9, 0], [[1, 1], [0]]⟩]⟩) none).1

/-- C8: `GroupDiff` never returns an error: for every diff and every
analyzer outcome (failure of any kind modelled as the `none` outcome), the
returned error is nil; the failure is absorbed into the deterministic
fallback result rather than surfaced. -/
theorem groupDiff_no_error (d : Diff) (analyze : Option SemanticAnalysis)
    (describe : Option String) :
    (GroupDiff d analyze describe).2 = none := by
  rw [GroupDiff.eq_def]
  split
  · rfl
  split
  · rfl
  split
  · rw [singleHunkGroup]
    split
    · rfl
    · split <;> rfl
  · split <;> rfl

/-- C9: with an analyzer that always fails, `GroupDiff` is a pure function
of the diff model — the embedding is a function, so two runs on the same
input are definitionally identical — and it produces one singleton group per
hunk, their references listed exactly in ascending file-then-hunk order. -/
theorem groupDiff_deterministic_fallback (d : Diff) :
    (∀ g ∈ (GroupDiff d none none).1, g.hunks.length = 1) ∧
    refs (GroupDiff d none none).1 = allPairs d := by
  rw [GroupDiff]
  split
  · next hlen =>
    have hfs : d.files = [] := List.length_eq_zero.mp hlen
    constructor
    · simp
    · simp [refs, allPairs, hfs, filePairs]
  split
  · next hth =>
    have hall : allPairs d = [] := by
      have hl := length_allPairs d
      rw [hth] at hl
      exact List.length_eq_zero.mp hl
    constructor
    · simp
    · simp [refs, hall]
  split
  · next hcond =>
    obtain ⟨hth, hlen⟩ := hcond
    obtain ⟨f, hfs⟩ := List.length_eq_one.mp hlen
    have hhs : f.hunks.length = 1 := by
      rw [totalHunks, hfs] at hth
      simpa using hth
    obtain ⟨h0, hh0⟩ := List.length_eq_one.mp hhs
    have hap : allPairs d = [(0, 0)] := by
      rw [allPairs, hfs, filePairs, hh0]
      simp [filePairs, hunkPairs]
    rw [singleHunkGroup_eval d none f h0 hfs hh0]
    constructor
    · intro g hg
      simp only [List.mem_singleton] at hg
      subst hg
      rfl
    · rw [hap]
      simp [refs]
  · constructor
    · intro g hg
      exact fallbackFiles_singletons d.files 0 g hg
    · rw [show ((fallbackGrouping d, (none : Option String)).1) =
          fallbackFiles 0 d.files from rfl]
      rw [refs_fallbackFiles]
      rfl

/-- Witness for `groupDiff_deterministic_fallback`: the references of the
failing-analyzer result on a two-file diff are exactly the ascending
enumeration of its hunk pairs. -/
theorem groupDiff_deterministic_fallback_witness :
    refs (GroupDiff
      ⟨[⟨"a", "a", false, false, false, false, "text",
         [⟨1, 1, 1, 1, [], ""⟩, ⟨5, 1, 5, 1, [], ""⟩]⟩,
        ⟨"b", "b", true, false, false, false, "text",
         [⟨2, 1, 2, 1, [], ""⟩]⟩]⟩ none none).1 =
    allPairs
      ⟨[⟨"a", "a", false, false, false, false, "text",
         [⟨1, 1, 1, 1, [], ""⟩, ⟨5, 1, 5, 1, [], ""⟩]⟩,
        ⟨"b", "b", true, false, false, false, "text",
         [⟨2, 1, 2, 1, [], ""⟩]⟩]⟩ :=
  (groupDiff_deterministic_fallback
    ⟨[⟨"a", "a", false, false, false, false, "text",
       [⟨1, 1, 1, 1, [], ""⟩, ⟨5, 1, 5, 1, [], ""⟩]⟩,
      ⟨"b", "b", true, false, false, false, "text",
       [⟨2, 1, 2, 1, [], ""⟩]⟩]⟩).2

/-! ## The result cache -/

theorem mem_of_last {α : Type _} {l : List α} {a : α}
    (h : l.getLast? = some a) : a ∈ l := by
  obtain ⟨hne, rfl⟩ := List.mem_getLast?_eq_getLast h
  exact List.getLast_mem hne

theorem totalSize_cons (e : Entry) (l : List Entry) :
    totalSize (e :: l) = e.size + totalSize l := by
  simp [totalSize]

theorem removeFirstKey_sublist (key : String) (es : List Entry) :
    List.Sublist (removeFirstKey key es) es := by
  induction es with
  | nil => simp [removeFirstKey]
  | cons e rest ih =>
    rw [removeFirstKey]
    split
    · exact List.sublist_cons_self e rest
    · exact ih.cons₂ e

/-- With duplicate-free keys, removing the first entry with the key removes
every entry with it. -/
theorem removeFirstKey_key_ne (key : String) (es : List Entry)
    (hnd : (es.map Entry.key).Nodup) :
    ∀ e ∈ removeFirstKey key es, e.key ≠ key := by
  induction es with
  | nil => simp [removeFirstKey]
  | cons x rest ih =>
    rw [removeFirstKey]
    simp only [List.map_cons, List.nodup_cons] at hnd
    obtain ⟨hx, hrest⟩ := hnd
    split
    · next hxk =>
      intro e he hek
      apply hx
      rw [hxk, ← hek]
      exact List.mem_map_of_mem Entry.key he
    · next hxk =>
      intro e he
      rcases List.mem_cons.mp he with rfl | he
      · exact hxk
      · exact ih hrest e he

/-- A sorted entry list is a fixed point of the insertion sort. -/
theorem sortByCreated_sorted (es : List Entry)
    (h : es.Pairwise (fun a b => a.createdAt < b.createdAt)) :
    sortByCreated es = es := by
  induction es with
  | nil => rfl
  | cons e rest ih =>
    obtain ⟨hhead, htail⟩ := List.pairwise_cons.mp h
    rw [sortByCreated, ih htail]
    cases rest with
    | nil => rfl
    | cons x xs =>
      rw [insertByCreated, if_pos (hhead x (List.mem_cons_self ..))]

/-- The eviction loop keeps a suffix whose total fits the budget; each
dropped entry was dropped while the running total still exceeded it. -/
theorem dropWhileOver_spec (maxS : Nat) :
    ∀ (es : List Entry) (t : Nat), t = totalSize es →
    ∃ dropped, es = dropped ++ dropWhileOver maxS t es ∧
      totalSize (dropWhileOver maxS t es) ≤ maxS ∧
      ∀ e, dropped.getLast? = some e →
        maxS < totalSize (e :: dropWhileOver maxS t es) := by
  intro es
  induction es with
  | nil =>
    intro t ht
    refine ⟨[], by simp [dropWhileOver], ?_, by simp⟩
    simp [dropWhileOver, totalSize]
  | cons e rest ih =>
    intro t ht
    rw [dropWhileOver]
    split
    · next hgt =>
      have hts : t = e.size + totalSize rest := by
        rw [ht, totalSize_cons]
      obtain ⟨dr, hdr1, hdr2, hdr3⟩ := ih (t - e.size) (by omega)
      refine ⟨e :: dr, ?_, hdr2, ?_⟩
      · rw [List.cons_append, ← hdr1]
      · intro x hx
        cases dr with
        | nil =>
          simp only [List.getLast?_singleton, Option.some.injEq] at hx
          subst hx
          rw [List.nil_append] at hdr1
          rw [← hdr1, totalSize_cons]
          omega
        | cons d0 drest =>
          rw [List.getLast?_cons_cons] at hx
          exact hdr3 x hx
    · next hle =>
      refine ⟨[], by simp, ?_, by simp⟩
      rw [← ht]
      omega

/-- `Get` finds the stored value when every entry carrying the key carries
the value and at least one entry carries the key. -/
theorem get_of_unique_key (kk vv : String) (m : Nat) :
    ∀ l : List Entry,
      (∀ e ∈ l, e.key = kk → e.value = vv) →
      (∃ e ∈ l, e.key = kk) →
      Cache.Get ⟨l, m⟩ kk = some vv := by
  intro l
  induction l with
  | nil =>
    rintro _ ⟨e, he, _⟩
    simp at he
  | cons p rest ih =>
    intro hall hex
    by_cases hpk : p.key = kk
    · rw [Cache.Get]
      simp only [List.find?_cons, hpk]
      simp
      exact hall p (List.mem_cons_self ..) hpk
    · have hrec := ih (fun e he => hall e (List.mem_cons_of_mem _ he)) ?_
      · rw [Cache.Get] at hrec ⊢
        simp only [List.find?_cons]
        rw [show (decide (p.key = kk)) = false by simp [hpk]]
        exact hrec
      · obtain ⟨e, he, hek⟩ := hex
        rcases List.mem_cons.mp he with rfl | he
        · exact absurd hek hpk
        · exact ⟨e, he, hek⟩

/-- After appending a fresh entry and running the eviction loop, `Get` on
the fresh entry's key returns its value, provided the entry fits the budget
and no retained older entry shares its key. -/
theorem get_after_evict (removed : List Entry) (newE : Entry) (m : Nat)
    (hrem : ∀ e ∈ removed, e.key ≠ newE.key)
    (hsize : newE.size ≤ m) :
    Cache.Get
      ⟨dropWhileOver m (totalSize (removed ++ [newE])) (removed ++ [newE]), m⟩
      newE.key = some newE.value := by
  obtain ⟨dropped, hd1, hd2, hd3⟩ :=
    dropWhileOver_spec m (removed ++ [newE]) _ rfl
  set kept := dropWhileOver m (totalSize (removed ++ [newE]))
    (removed ++ [newE]) with hkeq
  have hkne : kept ≠ [] := by
    intro hkept
    rw [hkept, List.append_nil] at hd1
    have hlast : dropped.getLast? = some newE := by
      rw [← hd1]
      exact List.getLast?_concat _
    have hgt := hd3 _ hlast
    rw [hkept, totalSize_cons] at hgt
    simp [totalSize] at hgt
    omega
  have hmem : ∀ e ∈ kept, e ∈ removed ∨ e = newE := by
    intro e he
    have hin : e ∈ removed ++ [newE] := by
      rw [hd1]
      exact List.mem_append_right _ he
    rcases List.mem_append.mp hin with h | h
    · exact Or.inl h
    · exact Or.inr (List.mem_singleton.mp h)
  have hlast_es : (removed ++ [newE]).getLast? = some newE :=
    List.getLast?_concat _
  have hlast_kept : kept.getLast? = some newE := by
    rw [hd1, List.getLast?_append] at hlast_es
    have hy := List.getLast?_eq_getLast_of_ne_nil hkne
    rw [hy] at hlast_es ⊢
    simpa using hlast_es
  have hnewmem : newE ∈ kept := mem_of_last hlast_kept
  refine get_of_unique_key newE.key newE.value m kept ?_ ⟨newE, hnewmem, rfl⟩
  intro e he hek
  rcases hmem e he with h | h
  · exact absurd hek (hrem e h)
  · rw [h]

/-- C5 (amended): `Set(k, v)` followed immediately by `Get(k)` returns `v`
provided the new entry fits the byte budget (`len k + len v ≤ budget`; an
entry larger than the whole budget is evicted by its own `Set` and the `Get`
misses); and after any `Set` — on a cache state with duplicate-free keys and
strictly increasing `createdAt` stamps older than `now` — the retained
entries are exactly the most-recent suffix of the time-ordered entries whose
cumulative size fits the budget (the same-key entry having been replaced,
not merged, before eviction). -/
theorem cache_set_get_evict (c : Cache) (k v : String) (now : Nat)
    (hkeys : (c.entries.map Entry.key).Nodup)
    (hsorted : c.entries.Pairwise (fun a b => a.createdAt < b.createdAt))
    (hfresh : ∀ e ∈ c.entries, e.createdAt < now) :
    (goLen k + goLen v ≤ c.maxSize →
      Cache.Get (Cache.Set c k v now) k = some v) ∧
    ∃ dropped,
      removeFirstKey k c.entries ++ [⟨k, v, goLen k + goLen v, now⟩] =
        dropped ++ (Cache.Set c k v now).entries ∧
      totalSize (Cache.Set c k v now).entries ≤ c.maxSize ∧
      ∀ e, dropped.getLast? = some e →
        c.maxSize < totalSize (e :: (Cache.Set c k v now).entries) := by
  have hsub := removeFirstKey_sublist k c.entries
  have hsorted' :
      (removeFirstKey k c.entries ++
          [(⟨k, v, goLen k + goLen v, now⟩ : Entry)]).Pairwise
        (fun a b => a.createdAt < b.createdAt) := by
    rw [List.pairwise_append]
    refine ⟨hsorted.sublist hsub, by simp, ?_⟩
    intro x hx y hy
    rw [List.mem_singleton] at hy
    subst hy
    exact hfresh x (hsub.mem hx)
  have hset : Cache.Set c k v now =
      ⟨dropWhileOver c.maxSize
        (totalSize (removeFirstKey k c.entries ++ [⟨k, v, goLen k + goLen v, now⟩]))
        (removeFirstKey k c.entries ++ [⟨k, v, goLen k + goLen v, now⟩]),
       c.maxSize⟩ := by
    show Cache.evict
        ⟨removeFirstKey k c.entries ++ [⟨k, v, goLen k + goLen v, now⟩],
         c.maxSize⟩ = _
    rw [Cache.evict]
    dsimp only
    rw [sortByCreated_sorted _ hsorted']
  obtain ⟨dropped, hd1, hd2, hd3⟩ := dropWhileOver_spec c.maxSize
    (removeFirstKey k c.entries ++ [⟨k, v, goLen k + goLen v, now⟩]) _ rfl
  constructor
  · intro hsize
    rw [hset]
    exact get_after_evict (removeFirstKey k c.entries)
      ⟨k, v, goLen k + goLen v, now⟩ c.maxSize
      (removeFirstKey_key_ne k c.entries hkeys) hsize
  · exact ⟨dropped, by rw [hset]; exact hd1, by rw [hset]; exact hd2,
      fun e he => by rw [hset]; exact hd3 e he⟩

/-- Witness for `cache_set_get_evict` at a concrete cache of budget 10. -/
theorem cache_set_get_evict_witness :
    Cache.Get (Cache.Set ⟨[⟨"a", "x", 2, 0⟩], 10⟩ "k" "vv" 5) "k" = some "vv" :=
  (cache_set_get_evict ⟨[⟨"a", "x", 2, 0⟩], 10⟩ "k" "vv" 5 (by decide)
    (by decide) (by decide)).1 (by decide)

/-- C5 counterexample: with budget 5 (`cache.New(5)`), `Set("k", "aaaaaa")`
stores an entry of size 7 > 5, and the eviction pass run by that same `Set`
drops the just-written entry, so the immediate `Get` misses — refuting the
unconditional Set-then-Get round trip. -/
theorem cache_counterexample :
    Cache.Get (Cache.Set (Cache.New 5) "k" "aaaaaa" 0) "k" = none := by
  decide

/-! ## The cache-wired single-description path -/

theorem get_singleton (key val : String) (sz ts : Nat) (m : Nat) :
    Cache.Get ⟨[⟨key, val, sz, ts⟩], m⟩ key = some val := by
  rw [Cache.Get]
  simp [List.find?]

/-- Evaluating `singleHunkGroupWired` on a one-file one-hunk diff. -/
theorem singleHunkGroupWired_eval (d : Diff) (c : Cache)
    (describe : Option String) (now : Nat) (f : FileDiff) (h0 : Hunk)
    (hfs : d.files = [f]) (hh0 : f.hunks = [h0]) :
    singleHunkGroupWired d c describe now =
      (match Cache.Get c (HashKey (RawString d)) with
       | some v =>
         (([{ title := generateTitle f h0, description := v,
              hunks := [⟨0, 0⟩] }], none), c)
       | none =>
         match describe with
         | some v =>
           (([{ title := generateTitle f h0, description := v,
                hunks := [⟨0, 0⟩] }], none),
            Cache.Set c (HashKey (RawString d)) v now)
         | none =>
           (([{ title := generateTitle f h0,
                description := "Changes to " ++ f.newPath,
                hunks := [⟨0, 0⟩] }], none), c)) := by
  rw [singleHunkGroupWired, hfs]
  dsimp only
  rw [hh0]

/-- C3 (spec-modelled wiring): on a diff with exactly one file and one hunk
the wired `GroupDiff` takes the single-description fast path regardless of
the structured-analysis outcome; it checks the cache first under the hash of
the raw diff text — a hit makes the result the cached prose, independent of
the analyzer — and when the cache misses and the analyzer fails, the
description is exactly `"Changes to <path>"` for the file's new path, with
the deterministic title. -/
theorem groupDiffWired_single_hunk (d : Diff) (c : Cache)
    (analyze : Option SemanticAnalysis) (describe : Option String) (now : Nat)
    (f : FileDiff) (h0 : Hunk) (hfs : d.files = [f]) (hh0 : f.hunks = [h0]) :
    (∀ v, Cache.Get c (HashKey (RawString d)) = some v →
      (GroupDiffWired d c analyze describe now).1.1 =
        [{ title := generateTitle f h0, description := v,
           hunks := [⟨0, 0⟩] }]) ∧
    (Cache.Get c (HashKey (RawString d)) = none → describe = none →
      (GroupDiffWired d c analyze describe now).1.1 =
        [{ title := generateTitle f h0,
           description := "Changes to " ++ f.newPath,
           hunks := [⟨0, 0⟩] }]) := by
  have hlen : d.files.length = 1 := by rw [hfs]; rfl
  have hth : totalHunks d = 1 := by
    rw [totalHunks, hfs]
    simp [hh0]
  have hdispatch : GroupDiffWired d c analyze describe now =
      singleHunkGroupWired d c describe now := by
    rw [GroupDiffWired.eq_def]
    rw [if_neg (by simp [hlen]), if_neg (by simp [hth]),
      if_pos ⟨hth, hlen⟩]
  constructor
  · intro v hget
    rw [hdispatch, singleHunkGroupWired_eval d c describe now f h0 hfs hh0,
      hget]
  · intro hget hdesc
    rw [hdispatch, singleHunkGroupWired_eval d c describe now f h0 hfs hh0,
      hget, hdesc]

/-- Witness for `groupDiffWired_single_hunk`: a cached description is
returned on a hit even though the analyzer outcomes are failures, and with
an empty cache a failing analyzer yields the deterministic description. -/
theorem groupDiffWired_single_hunk_witness :
    (GroupDiffWired
        ⟨[⟨"m.go", "m.go", false, false, false, false, "go",
           [⟨1, 1, 1, 1, [], ""⟩]⟩]⟩
        ⟨[⟨HashKey (RawString
             ⟨[⟨"m.go", "m.go", false, false, false, false, "go",
                [⟨1, 1, 1, 1, [], ""⟩]⟩]⟩),
           "cached desc", 1, 0⟩], 999⟩
        none none 0).1.1 =
      [{ title := generateTitle
           ⟨"m.go", "m.go", false, false, false, false, "go",
            [⟨1, 1, 1, 1, [], ""⟩]⟩
           ⟨1, 1, 1, 1, [], ""⟩
         description := "cached desc", hunks := [⟨0, 0⟩] }] ∧
    (GroupDiffWired
        ⟨[⟨"m.go", "m.go", false, false, false, false, "go",
           [⟨1, 1, 1, 1, [], ""⟩]⟩]⟩
        ⟨[], 999⟩ none none 0).1.1 =
      [{ title := generateTitle
           ⟨"m.go", "m.go", false, false, false, false, "go",
            [⟨1, 1, 1, 1, [], ""⟩]⟩
           ⟨1, 1, 1, 1, [], ""⟩
         description := "Changes to " ++ "m.go", hunks := [⟨0, 0⟩] }] :=
  ⟨(groupDiffWired_single_hunk _ _ none none 0 _ _ rfl rfl).1 "cached desc"
     (get_singleton _ _ _ _ _),
   (groupDiffWired_single_hunk _ _ none none 0 _ _ rfl rfl).2 rfl rfl⟩

end Hnk
